import Mathlib

/-!
Verification of the object-pool allocator in `src/memory_pool.hpp`.

The development shallowly embeds the three components of the header:

* `MemoryPoolBlock` — a fixed-capacity arena with an intrusive free list
  threaded through an index array (`indices_begin()`), plus the object
  storage starting at `memory_begin()`.  The object storage address is
  modelled by the field `base`, in units of `sizeof(T)`; slot `i` of the
  block lives at address `base + i` and the pointer returned by
  `new_object` is such an address.  Constructed objects themselves carry
  no observable state in the model; liveness of a slot is the observable.
* `FixedMemoryPool` — a wrapper around a single block.
* `DynamicMemoryPool` — a growable sequence of blocks with a cached
  `BlockInfo` record per block and a free-block hint.

The source's `detail::index_t` is `uint32_t`.  Indices are modelled as
`Nat`: every index value the source manipulates is bounded by
`entries_per_block` (itself a `uint32_t` value) or by the number of
blocks, so no `uint32_t` wrap-around can occur under the trace-length
bounds assumed by the pool-level theorems.  Allocation failure of the
host allocator is modelled by explicit oracles (`create_ok`,
`realloc_ok`) passed to the operations that call it.
-/

namespace MemoryPool

/-- Statistics record returned by `get_stats` (both fields `size_t`). -/
structure MemoryPoolStats where
  block_count : Nat
  allocation_count : Nat
deriving DecidableEq, Repr

/-- Model of `detail::MemoryPoolBlock<T>`.  `free_head_index` and
`entries_per_block` are the two header fields; `indices` is the index
array at `indices_begin()`; `base` is the address of `memory_begin()`
counted in units of `sizeof(T)`. -/
structure MemoryPoolBlock where
  free_head_index : Nat
  entries_per_block : Nat
  indices : List Nat
  base : Nat
deriving DecidableEq, Repr

/-- Model of `MemoryPoolBlock<T>::create` / the private constructor, for the
case in which `aligned_malloc` succeeds (the failing case is handled by the
callers' oracles): `free_head_index_ = 0` and `indices[i] = i + 1` for every
slot.  `base` is the storage address handed out by the host allocator. -/
def MemoryPoolBlock.create (entries_per_block base : Nat) : MemoryPoolBlock :=
  { free_head_index := 0
    entries_per_block := entries_per_block
    indices := (List.range entries_per_block).map (fun i => i + 1)
    base := base }

/-- Model of `MemoryPoolBlock<T>::new_object`:  if `free_head_index_`
differs from `entries_per_block_`, pop the head of the free list, mark the
slot allocated by the self-reference `indices[index] = index`, construct the
object there and return its address; otherwise return null and leave the
block unchanged. -/
def MemoryPoolBlock.new_object (b : MemoryPoolBlock) : Option Nat × MemoryPoolBlock :=
  let index := b.free_head_index
  if index ≠ b.entries_per_block then
    (some (b.base + index),
      { b with
        free_head_index := b.indices.getD index 0
        indices := b.indices.set index index })
  else
    (none, b)

/-- Model of `MemoryPoolBlock<T>::delete_object`: null is a no-op; otherwise
destruct the object, compute `index = ptr - memory_begin()`, push the slot
onto the free list (`indices[index] = free_head_index_;
free_head_index_ = index`).  The source's assertions (pointer in range,
`indices[index] == index`) are preconditions of the theorems. -/
def MemoryPoolBlock.delete_object (b : MemoryPoolBlock) (ptr : Option Nat) : MemoryPoolBlock :=
  match ptr with
  | none => b
  | some p =>
    let index := p - b.base
    { b with
      indices := b.indices.set index b.free_head_index
      free_head_index := index }

/-- Model of `MemoryPoolBlock<T>::for_each`: the visitor is called exactly on
the addresses `memory_begin() + i` of the slots with `indices[i] == i`, in
increasing slot order; the model returns that list of addresses. -/
def MemoryPoolBlock.for_each_list (b : MemoryPoolBlock) : List Nat :=
  ((List.range b.entries_per_block).filter
      (fun i => b.indices.getD i 0 == i)).map (fun i => b.base + i)

/-- Model of `MemoryPoolBlock<T>::count_allocations`: counts the visits made
by `for_each`. -/
def MemoryPoolBlock.count_allocations (b : MemoryPoolBlock) : Nat :=
  b.for_each_list.length

/-- Model of `FixedMemoryPool<T>`: owns exactly one block. -/
structure FixedMemoryPool where
  block : MemoryPoolBlock
deriving DecidableEq, Repr

/-- Model of the `FixedMemoryPool` constructor (successful `Block::create`). -/
def FixedMemoryPool.create (max_entries base : Nat) : FixedMemoryPool :=
  ⟨MemoryPoolBlock.create max_entries base⟩

/-- Model of `FixedMemoryPool<T>::new_object`: delegates to the block. -/
def FixedMemoryPool.new_object (p : FixedMemoryPool) : Option Nat × FixedMemoryPool :=
  let r := p.block.new_object
  (r.1, ⟨r.2⟩)

/-- Model of `FixedMemoryPool<T>::delete_object`: delegates to the block. -/
def FixedMemoryPool.delete_object (p : FixedMemoryPool) (ptr : Option Nat) : FixedMemoryPool :=
  ⟨p.block.delete_object ptr⟩

/-- Model of `FixedMemoryPool<T>::for_each`: delegates to the block. -/
def FixedMemoryPool.for_each_list (p : FixedMemoryPool) : List Nat :=
  p.block.for_each_list

/-- Model of `FixedMemoryPool<T>::get_stats`: one block, and the allocation
count obtained by running `for_each` over the block. -/
def FixedMemoryPool.get_stats (p : FixedMemoryPool) : MemoryPoolStats :=
  { block_count := 1
    allocation_count := p.block.for_each_list.length }

/-- Free-list chain relation: `FreeChain b h l` states that starting from
head value `h` and repeatedly following `indices`, the block's free list
visits exactly the slots in `l` (in order) and terminates at the sentinel
`entries_per_block`. -/
inductive FreeChain (b : MemoryPoolBlock) : Nat → List Nat → Prop where
  | nil : FreeChain b b.entries_per_block []
  | cons (i : Nat) (l : List Nat) (hlt : i < b.entries_per_block)
      (next : FreeChain b (b.indices.getD i 0) l) : FreeChain b i (i :: l)

/-- Structural well-formedness of a block: the index array has one entry per
slot, and the free list starting at `free_head_index` is a duplicate-free
chain covering exactly the slots whose index entry is not the self-reference. -/
structure BlockWF (b : MemoryPoolBlock) : Prop where
  len : b.indices.length = b.entries_per_block
  chain : ∃ l, FreeChain b b.free_head_index l ∧ l.Nodup ∧
    ∀ i, i < b.entries_per_block → (i ∈ l ↔ b.indices.getD i 0 ≠ i)

/-- Number of slots currently marked allocated (self-referencing index). -/
def countLive (b : MemoryPoolBlock) : Nat :=
  (List.range b.entries_per_block).countP (fun i => b.indices.getD i 0 == i)

/-- Correspondence between the ghost liveness list `L` (one `Bool` per slot,
`true` iff a live object occupies the slot) and the self-reference encoding
in the index array. -/
def LiveOk (b : MemoryPoolBlock) (L : List Bool) : Prop :=
  L.length = b.entries_per_block ∧
    ∀ i, i < b.entries_per_block → (L.getD i false = true ↔ b.indices.getD i 0 = i)

/-- Full ghost invariant for claim C1: structural well-formedness plus the
self-reference-marks-allocated correspondence. -/
def BlockGhostInv (b : MemoryPoolBlock) (L : List Bool) : Prop :=
  BlockWF b ∧ LiveOk b L

/-! ### List helpers -/

theorem getD_set_self {α : Type _} (l : List α) (i : Nat) (v d : α) (h : i < l.length) :
    (l.set i v).getD i d = v := by
  rw [List.getD_eq_getElem _ _ (by simpa using h)]
  exact List.getElem_set_self _

theorem getD_set_ne {α : Type _} (l : List α) {i j : Nat} (v d : α) (h : i ≠ j) :
    (l.set i v).getD j d = l.getD j d := by
  rw [List.getD_eq_getElem?_getD, List.getD_eq_getElem?_getD, List.getElem?_set_ne h]

/-- Flipping the predicate from false to true at one element of `range n`
increments `countP` by one. -/
theorem countP_range_flip (p q : Nat → Bool) :
    ∀ (n j : Nat), j < n → (∀ i, i < n → i ≠ j → p i = q i) →
      p j = false → q j = true →
      (List.range n).countP q = (List.range n).countP p + 1 := by
  intro n
  induction n with
  | zero => intro j hj; exact absurd hj (Nat.not_lt_zero j)
  | succ n ih =>
    intro j hj hag hp hq
    rw [List.range_succ, List.countP_append, List.countP_append]
    by_cases hjn : j = n
    · subst hjn
      have hpq : (List.range j).countP p = (List.range j).countP q :=
        List.countP_congr (fun x hx => by
          have hx' := List.mem_range.mp hx
          rw [hag x (Nat.lt_succ_of_lt hx') (by omega)])
      have h1 : List.countP q [j] = 1 := by
        simp [List.countP_cons, hq]
      have h0 : List.countP p [j] = 0 := by
        simp [List.countP_cons, hp]
      omega
    · have hj' : j < n := by omega
      have hmain := ih j hj' (fun i hi hij => hag i (Nat.lt_succ_of_lt hi) hij) hp hq
      have hn : p n = q n := hag n (Nat.lt_succ_self n) (by omega)
      have : List.countP p [n] = List.countP q [n] := by
        simp [List.countP_cons, hn]
      omega

/-! ### Basic facts about `MemoryPoolBlock.create` -/

theorem create_indices_getD (n base i : Nat) (h : i < n) :
    (MemoryPoolBlock.create n base).indices.getD i 0 = i + 1 := by
  have hlen : i < ((List.range n).map (fun j => j + 1)).length := by
    simpa using h
  show ((List.range n).map (fun j => j + 1)).getD i 0 = i + 1
  rw [List.getD_eq_getElem _ _ hlen]
  simp

theorem create_indices_length (n base : Nat) :
    (MemoryPoolBlock.create n base).indices.length = n := by
  simp [MemoryPoolBlock.create]

@[simp]
theorem create_entries_per_block (n base : Nat) :
    (MemoryPoolBlock.create n base).entries_per_block = n := rfl

@[simp]
theorem create_base_eq (n base : Nat) :
    (MemoryPoolBlock.create n base).base = base := rfl

@[simp]
theorem create_free_head (n base : Nat) :
    (MemoryPoolBlock.create n base).free_head_index = 0 := rfl

/-! ### Free-chain lemmas -/

theorem freeChain_mem_lt {b : MemoryPoolBlock} {h0 : Nat} {l : List Nat}
    (hc : FreeChain b h0 l) : ∀ j ∈ l, j < b.entries_per_block := by
  induction hc with
  | nil => intro j hj; cases hj
  | cons i l hlt next ih =>
    intro j hj
    rcases List.mem_cons.mp hj with rfl | hj
    · exact hlt
    · exact ih j hj

theorem freeChain_nil_head {b : MemoryPoolBlock} {h0 : Nat}
    (hc : FreeChain b h0 []) : h0 = b.entries_per_block := by
  cases hc; rfl

theorem freeChain_cons_head {b : MemoryPoolBlock} {h0 x : Nat} {xs : List Nat}
    (hc : FreeChain b h0 (x :: xs)) :
    h0 = x ∧ x < b.entries_per_block ∧ FreeChain b (b.indices.getD x 0) xs := by
  cases hc with
  | cons _ _ hlt next => exact ⟨rfl, hlt, next⟩

/-- Transport of a free chain between blocks that agree on capacity and on the
index entries of the chain's elements. -/
theorem freeChain_congr {b b' : MemoryPoolBlock}
    (hn : b'.entries_per_block = b.entries_per_block) :
    ∀ (l : List Nat) (h0 : Nat),
      (∀ j ∈ l, b'.indices.getD j 0 = b.indices.getD j 0) →
      FreeChain b h0 l → FreeChain b' h0 l := by
  intro l
  induction l with
  | nil =>
    intro h0 _ hc
    rw [freeChain_nil_head hc, ← hn]
    exact FreeChain.nil
  | cons x xs ih =>
    intro h0 hag hc
    obtain ⟨heq, hlt, next⟩ := freeChain_cons_head hc
    subst heq
    refine FreeChain.cons h0 xs (by omega) ?_
    rw [hag h0 (List.mem_cons_self _ _)]
    exact ih _ (fun j hj => hag j (List.mem_cons_of_mem _ hj)) next

theorem freeChain_create (n base : Nat) :
    ∀ (m k : Nat), k + m = n →
      FreeChain (MemoryPoolBlock.create n base) k (List.range' k m) := by
  intro m
  induction m with
  | zero =>
    intro k hk
    have hkn : k = n := by omega
    subst hkn
    exact FreeChain.nil
  | succ m ih =>
    intro k hk
    rw [List.range'_succ]
    refine FreeChain.cons k _ (by simp only [create_entries_per_block]; omega) ?_
    rw [create_indices_getD n base k (by omega)]
    exact ih (k + 1) (by omega)

theorem blockWF_create (n base : Nat) : BlockWF (MemoryPoolBlock.create n base) := by
  refine ⟨create_indices_length n base, List.range n, ?_, ?_, ?_⟩
  · have := freeChain_create n base n 0 (by omega)
    rwa [List.range_eq_range']
  · exact List.nodup_range n
  · intro i hi
    simp only [create_entries_per_block] at hi
    rw [create_indices_getD n base i hi]
    simp [List.mem_range, hi]

theorem countLive_create (n base : Nat) : countLive (MemoryPoolBlock.create n base) = 0 := by
  unfold countLive
  rw [List.countP_eq_zero]
  intro i hi
  have hi' := List.mem_range.mp hi
  rw [create_indices_getD n base i hi']
  simp

/-! ### Consequences of `BlockWF` -/

theorem blockWF_free_head_le {b : MemoryPoolBlock} (hw : BlockWF b) :
    b.free_head_index ≤ b.entries_per_block := by
  obtain ⟨l, hcl, -, -⟩ := hw.chain
  cases l with
  | nil => exact le_of_eq (freeChain_nil_head hcl)
  | cons x xs =>
    obtain ⟨heq, hlt, -⟩ := freeChain_cons_head hcl
    omega

/-- With the block full (`free_head_index` at the sentinel), every slot is
marked allocated. -/
theorem blockWF_full {b : MemoryPoolBlock} (hw : BlockWF b)
    (h : b.free_head_index = b.entries_per_block) :
    countLive b = b.entries_per_block := by
  obtain ⟨l, hcl, hnd, hcov⟩ := hw.chain
  have hl : l = [] := by
    cases l with
    | nil => rfl
    | cons x xs =>
      obtain ⟨rfl, hlt, -⟩ := freeChain_cons_head hcl
      omega
  subst hl
  have hall : ∀ i, i < b.entries_per_block → b.indices.getD i 0 = i := by
    intro i hi
    by_contra hne
    exact absurd ((hcov i hi).mpr hne) (List.not_mem_nil i)
  have hcp : (List.range b.entries_per_block).countP (fun i => b.indices.getD i 0 == i)
      = (List.range b.entries_per_block).length :=
    List.countP_eq_length.mpr (fun i hi => by
      have hi' := List.mem_range.mp hi
      show (b.indices.getD i 0 == i) = true
      rw [hall i hi']
      exact beq_self_eq_true i)
  unfold countLive
  rw [hcp, List.length_range]

/-! ### Unfolding the block operations -/

theorem new_object_of_ne (b : MemoryPoolBlock)
    (h : b.free_head_index ≠ b.entries_per_block) :
    b.new_object = (some (b.base + b.free_head_index),
      { b with
        free_head_index := b.indices.getD b.free_head_index 0
        indices := b.indices.set b.free_head_index b.free_head_index }) := by
  simp [MemoryPoolBlock.new_object, h]

theorem new_object_of_eq (b : MemoryPoolBlock)
    (h : b.free_head_index = b.entries_per_block) :
    b.new_object = (none, b) := by
  simp [MemoryPoolBlock.new_object, h]

theorem delete_object_some (b : MemoryPoolBlock) (p : Nat) :
    b.delete_object (some p) =
      { b with
        indices := b.indices.set (p - b.base) b.free_head_index
        free_head_index := p - b.base } := rfl

/-- In a well-formed non-full block the head of the free list is a valid,
currently free slot; the second conjunct is the source's
`assert(indices[index] != index)` in `new_object`. -/
theorem blockWF_head_free {b : MemoryPoolBlock} (hw : BlockWF b)
    (h : b.free_head_index ≠ b.entries_per_block) :
    b.free_head_index < b.entries_per_block ∧
      b.indices.getD b.free_head_index 0 ≠ b.free_head_index := by
  obtain ⟨l, hcl, hnd, hcov⟩ := hw.chain
  cases l with
  | nil => exact absurd (freeChain_nil_head hcl) h
  | cons x xs =>
    obtain ⟨heq, hlt, -⟩ := freeChain_cons_head hcl
    subst heq
    exact ⟨hlt, (hcov _ hlt).mp (List.mem_cons_self _ _)⟩

/-- Allocation from a non-full well-formed block (stated for any block `b'`
whose fields match the update performed by `new_object`): well-formedness is
preserved and the number of allocated slots grows by one. -/
theorem blockWF_alloc_gen {b b' : MemoryPoolBlock} (hw : BlockWF b)
    (h : b.free_head_index ≠ b.entries_per_block)
    (hfh' : b'.free_head_index = b.indices.getD b.free_head_index 0)
    (hind' : b'.indices = b.indices.set b.free_head_index b.free_head_index)
    (hn' : b'.entries_per_block = b.entries_per_block) :
    BlockWF b' ∧ countLive b' = countLive b + 1 := by
  obtain ⟨hlt, hfree⟩ := blockWF_head_free hw h
  obtain ⟨l, hcl, hnd, hcov⟩ := hw.chain
  cases l with
  | nil => exact absurd (freeChain_nil_head hcl) h
  | cons x xs =>
    obtain ⟨heq, -, next⟩ := freeChain_cons_head hcl
    subst heq
    have hnotmem : b.free_head_index ∉ xs := (List.nodup_cons.mp hnd).1
    have hilen : b.free_head_index < b.indices.length := by rw [hw.len]; exact hlt
    have hlen' : b'.indices.length = b'.entries_per_block := by
      rw [hind', List.length_set, hn', hw.len]
    refine ⟨⟨hlen', xs, ?_, (List.nodup_cons.mp hnd).2, ?_⟩, ?_⟩
    · rw [hfh']
      refine freeChain_congr hn' xs _ ?_ next
      intro j hj
      rw [hind']
      exact getD_set_ne b.indices _ _ (fun hc => hnotmem (by rw [hc]; exact hj))
    · intro k hk
      rw [hn'] at hk
      rw [hind']
      by_cases hki : k = b.free_head_index
      · subst hki
        rw [getD_set_self b.indices _ _ 0 hilen]
        constructor
        · intro hmem
          exact absurd hmem hnotmem
        · intro hne
          exact absurd rfl hne
      · rw [getD_set_ne b.indices _ _ (fun hc => hki hc.symm)]
        have hold := hcov k hk
        constructor
        · intro hmem
          exact hold.mp (List.mem_cons_of_mem _ hmem)
        · intro hne
          rcases List.mem_cons.mp (hold.mpr hne) with hc | hmem
          · exact absurd hc hki
          · exact hmem
    · unfold countLive
      rw [hn', hind']
      refine countP_range_flip _ _ b.entries_per_block b.free_head_index hlt ?_ ?_ ?_
      · intro k hk hki
        show (b.indices.getD k 0 == k)
            = ((b.indices.set b.free_head_index b.free_head_index).getD k 0 == k)
        rw [getD_set_ne b.indices _ _ (fun hc => hki hc.symm)]
      · show (b.indices.getD b.free_head_index 0 == b.free_head_index) = false
        rw [beq_eq_false_iff_ne]
        exact hfree
      · show ((b.indices.set b.free_head_index b.free_head_index).getD
            b.free_head_index 0 == b.free_head_index) = true
        rw [getD_set_self b.indices _ _ 0 hilen]
        exact beq_self_eq_true _

/-- Releasing a live slot `i` of a well-formed block (stated for any block
`b'` whose fields match the update performed by `delete_object`):
well-formedness is preserved and the number of allocated slots shrinks by
one. -/
theorem blockWF_delete_gen {b b' : MemoryPoolBlock} {i : Nat} (hw : BlockWF b)
    (hi : i < b.entries_per_block) (hlive : b.indices.getD i 0 = i)
    (hfh' : b'.free_head_index = i)
    (hind' : b'.indices = b.indices.set i b.free_head_index)
    (hn' : b'.entries_per_block = b.entries_per_block) :
    BlockWF b' ∧ countLive b = countLive b' + 1 := by
  obtain ⟨l, hcl, hnd, hcov⟩ := hw.chain
  have hnotmem : i ∉ l := fun hmem => (hcov i hi).mp hmem hlive
  have hfh : b.free_head_index ≠ i := by
    intro hcontra
    cases l with
    | nil =>
      have hn := freeChain_nil_head hcl
      omega
    | cons x xs =>
      obtain ⟨heq, -, -⟩ := freeChain_cons_head hcl
      apply hnotmem
      rw [← hcontra, heq]
      exact List.mem_cons_self _ _
  have hilen : i < b.indices.length := by rw [hw.len]; exact hi
  have hlen' : b'.indices.length = b'.entries_per_block := by
    rw [hind', List.length_set, hn', hw.len]
  refine ⟨⟨hlen', i :: l, ?_, List.nodup_cons.mpr ⟨hnotmem, hnd⟩, ?_⟩, ?_⟩
  · rw [hfh']
    refine FreeChain.cons i l (by rw [hn']; exact hi) ?_
    rw [hind', getD_set_self b.indices _ _ 0 hilen]
    refine freeChain_congr hn' l _ ?_ hcl
    intro j hj
    rw [hind']
    exact getD_set_ne b.indices _ _ (fun hc => hnotmem (by rw [hc]; exact hj))
  · intro k hk
    rw [hn'] at hk
    rw [hind']
    by_cases hki : k = i
    · subst hki
      rw [getD_set_self b.indices _ _ 0 hilen]
      constructor
      · intro _ hcontra
        exact hfh hcontra
      · intro _
        exact List.mem_cons_self _ _
    · rw [getD_set_ne b.indices _ _ (fun hc => hki hc.symm)]
      have hold := hcov k hk
      constructor
      · intro hmem
        rcases List.mem_cons.mp hmem with hc | hmem
        · exact absurd hc hki
        · exact hold.mp hmem
      · intro hne
        exact List.mem_cons_of_mem _ (hold.mpr hne)
  · unfold countLive
    rw [hn', hind']
    refine countP_range_flip _ _ b.entries_per_block i hi ?_ ?_ ?_
    · intro k hk hki
      show ((b.indices.set i b.free_head_index).getD k 0 == k)
          = (b.indices.getD k 0 == k)
      rw [getD_set_ne b.indices _ _ (fun hc => hki hc.symm)]
    · show ((b.indices.set i b.free_head_index).getD i 0 == i) = false
      rw [getD_set_self b.indices _ _ 0 hilen, beq_eq_false_iff_ne]
      exact hfh
    · show (b.indices.getD i 0 == i) = true
      rw [hlive]
      exact beq_self_eq_true _

/-- Well-formedness and live-count effect of `new_object` on a non-full
block, phrased on the operation itself. -/
theorem blockWF_new_object {b : MemoryPoolBlock} (hw : BlockWF b)
    (h : b.free_head_index ≠ b.entries_per_block) :
    BlockWF b.new_object.2 ∧ countLive b.new_object.2 = countLive b + 1 := by
  have heq := new_object_of_ne b h
  refine blockWF_alloc_gen hw h ?_ ?_ ?_ <;> rw [heq]

/-- Well-formedness and live-count effect of `delete_object` on a live slot,
phrased on the operation itself. -/
theorem blockWF_delete_object {b : MemoryPoolBlock} {i : Nat} (hw : BlockWF b)
    (hi : i < b.entries_per_block) (hlive : b.indices.getD i 0 = i) :
    BlockWF (b.delete_object (some (b.base + i))) ∧
      countLive b = countLive (b.delete_object (some (b.base + i))) + 1 := by
  have hsub : b.base + i - b.base = i := by omega
  have heq : b.delete_object (some (b.base + i)) =
      { b with
        indices := b.indices.set i b.free_head_index
        free_head_index := i } := by
    rw [delete_object_some, hsub]
  refine blockWF_delete_gen hw hi hlive ?_ ?_ ?_ <;> rw [heq]

/-- Ghost-liveness preservation under allocation: the slot handed out is
exactly the one whose ghost flag flips to `true`. -/
theorem liveOk_alloc_gen {b b' : MemoryPoolBlock} {L : List Bool}
    (hw : BlockWF b) (h : b.free_head_index ≠ b.entries_per_block)
    (hL : LiveOk b L)
    (hfh' : b'.free_head_index = b.indices.getD b.free_head_index 0)
    (hind' : b'.indices = b.indices.set b.free_head_index b.free_head_index)
    (hn' : b'.entries_per_block = b.entries_per_block) :
    LiveOk b' (L.set b.free_head_index true) := by
  obtain ⟨hlt, hfree⟩ := blockWF_head_free hw h
  obtain ⟨hLlen, hiff⟩ := hL
  have hLlt : b.free_head_index < L.length := by rw [hLlen]; exact hlt
  have hilen : b.free_head_index < b.indices.length := by rw [hw.len]; exact hlt
  constructor
  · rw [List.length_set, hn']
    exact hLlen
  · intro k hk
    rw [hn'] at hk
    rw [hind']
    by_cases hki : k = b.free_head_index
    · subst hki
      rw [getD_set_self L _ _ false hLlt, getD_set_self b.indices _ _ 0 hilen]
      exact iff_of_true rfl rfl
    · rw [getD_set_ne L _ _ (fun hc => hki hc.symm),
        getD_set_ne b.indices _ _ (fun hc => hki hc.symm)]
      exact hiff k hk

/-- Ghost-liveness preservation under release of live slot `i`: the ghost
flag of exactly that slot flips to `false`. -/
theorem liveOk_delete_gen {b b' : MemoryPoolBlock} {L : List Bool} {i : Nat}
    (hi : i < b.entries_per_block) (hL : LiveOk b L)
    (hfhne : b.free_head_index ≠ i)
    (hlen : b.indices.length = b.entries_per_block)
    (hfh' : b'.free_head_index = i)
    (hind' : b'.indices = b.indices.set i b.free_head_index)
    (hn' : b'.entries_per_block = b.entries_per_block) :
    LiveOk b' (L.set i false) := by
  obtain ⟨hLlen, hiff⟩ := hL
  have hLlt : i < L.length := by rw [hLlen]; exact hi
  have hilen : i < b.indices.length := by rw [hlen]; exact hi
  constructor
  · rw [List.length_set, hn']
    exact hLlen
  · intro k hk
    rw [hn'] at hk
    rw [hind']
    by_cases hki : k = i
    · subst hki
      rw [getD_set_self L _ _ false hLlt, getD_set_self b.indices _ _ 0 hilen]
      constructor
      · intro hcontra
        exact absurd hcontra (by simp)
      · intro hcontra
        exact absurd hcontra hfhne
    · rw [getD_set_ne L _ _ (fun hc => hki hc.symm),
        getD_set_ne b.indices _ _ (fun hc => hki hc.symm)]
      exact hiff k hk

/-- C1: for every `MemoryPoolBlock`, the free-list invariant — slot `i` is
marked by the self-reference `index[i] == i` exactly when it holds a live
object, the other slots form the duplicate-free free chain threaded through
the index array and terminated by the sentinel `entries_per_block`, with
`free_head_index_` naming the first free slot (or the sentinel when full) —
holds after creation and is preserved by every `new_object` call and by
every `delete_object` call satisfying the ownership precondition. -/
theorem c1_free_list_invariant :
    (∀ n base, BlockGhostInv (MemoryPoolBlock.create n base) (List.replicate n false)) ∧
    (∀ b L, BlockGhostInv b L →
      (b.new_object.1 = none → b.new_object.2 = b) ∧
      (∀ a, b.new_object.1 = some a →
        BlockGhostInv b.new_object.2 (L.set (a - b.base) true))) ∧
    (∀ b L, BlockGhostInv b L → BlockGhostInv (b.delete_object none) L) ∧
    (∀ b L p, BlockGhostInv b L →
      b.base ≤ p → p < b.base + b.entries_per_block →
      L.getD (p - b.base) false = true →
      BlockGhostInv (b.delete_object (some p)) (L.set (p - b.base) false)) := by
  refine ⟨?_, ?_, ?_, ?_⟩
  · intro n base
    refine ⟨blockWF_create n base, ?_, ?_⟩
    · simp [MemoryPoolBlock.create]
    · intro i hi
      simp only [create_entries_per_block] at hi
      rw [create_indices_getD n base i hi]
      constructor
      · intro hcontra
        have : (List.replicate n false).getD i false = false := by
          rw [List.getD_eq_getD_get?]
          cases hget : (List.replicate n false).get? i with
          | none => rfl
          | some v =>
            have := List.get?_mem hget
            simp at this
            simp [hget, this]
        rw [this] at hcontra
        exact absurd hcontra (by simp)
      · intro hcontra
        omega
  · intro b L hinv
    obtain ⟨hw, hLok⟩ := hinv
    constructor
    · intro hnone
      by_cases hfull : b.free_head_index = b.entries_per_block
      · rw [new_object_of_eq b hfull]
      · rw [new_object_of_ne b hfull] at hnone
        simp at hnone
    · intro a ha
      by_cases hfull : b.free_head_index = b.entries_per_block
      · rw [new_object_of_eq b hfull] at ha
        simp at ha
      · have heq := new_object_of_ne b hfull
        have ha' : a = b.base + b.free_head_index := by
          rw [heq] at ha
          simpa using ha.symm
        have hsub : a - b.base = b.free_head_index := by omega
        rw [hsub]
        refine ⟨(blockWF_new_object hw hfull).1,
          liveOk_alloc_gen hw hfull hLok ?_ ?_ ?_⟩ <;> rw [heq]
  · intro b L hinv
    exact hinv
  · intro b L p hinv hge hlt hghost
    obtain ⟨hw, hLok⟩ := hinv
    have hi : p - b.base < b.entries_per_block := by omega
    have hlive : b.indices.getD (p - b.base) 0 = p - b.base :=
      (hLok.2 _ hi).mp hghost
    have hfhne : b.free_head_index ≠ p - b.base := by
      obtain ⟨l, hcl, hnd, hcov⟩ := hw.chain
      have hnotmem : p - b.base ∉ l := fun hmem => (hcov _ hi).mp hmem hlive
      intro hcontra
      cases l with
      | nil =>
        have := freeChain_nil_head hcl
        omega
      | cons x xs =>
        obtain ⟨hhd, -, -⟩ := freeChain_cons_head hcl
        apply hnotmem
        rw [← hcontra, hhd]
        exact List.mem_cons_self _ _
    have hpeq : p = b.base + (p - b.base) := by omega
    have hweq : BlockWF (b.delete_object (some p)) ∧
        countLive b = countLive (b.delete_object (some p)) + 1 := by
      rw [hpeq]
      exact blockWF_delete_object hw hi hlive
    refine ⟨hweq.1, liveOk_delete_gen hi hLok hfhne hw.len ?_ ?_ ?_⟩ <;>
      rw [delete_object_some]

/-- Closed witness for C1: the invariant at a concrete freshly created block,
after one allocation from it, and after releasing that allocation again. -/
theorem c1_free_list_invariant_witness :
    BlockGhostInv (MemoryPoolBlock.create 2 10) (List.replicate 2 false) ∧
    BlockGhostInv (MemoryPoolBlock.create 2 10).new_object.2
      ((List.replicate 2 false).set (10 - (MemoryPoolBlock.create 2 10).base) true) ∧
    BlockGhostInv
      ((MemoryPoolBlock.create 2 10).new_object.2.delete_object (some 10))
      ((((List.replicate 2 false).set
          (10 - (MemoryPoolBlock.create 2 10).base) true)).set
        (10 - (MemoryPoolBlock.create 2 10).new_object.2.base) false) := by
  have h1 := c1_free_list_invariant.1 2 10
  have h2 := (c1_free_list_invariant.2.1 _ _ h1).2 10 (by decide)
  have h3 := c1_free_list_invariant.2.2.2 _ _ 10 h2 (by decide) (by decide) (by decide)
  exact ⟨h1, h2, h3⟩

/-- C2: functional specification of `MemoryPoolBlock::new_object`: on a full
block it returns null and leaves the state unchanged; otherwise, with `i`
the old free head, it returns the address of slot `i`, sets `index[i] = i`,
moves `free_head_index_` to the old `index[i]`, and modifies no other index
entry and no other field of the block. -/
theorem c2_new_object_functional_spec (b : MemoryPoolBlock)
    (hlen : b.indices.length = b.entries_per_block)
    (hle : b.free_head_index ≤ b.entries_per_block) :
    (b.free_head_index = b.entries_per_block → b.new_object = (none, b)) ∧
    (b.free_head_index ≠ b.entries_per_block →
      b.new_object.1 = some (b.base + b.free_head_index) ∧
      b.new_object.2.free_head_index = b.indices.getD b.free_head_index 0 ∧
      b.new_object.2.indices.getD b.free_head_index 0 = b.free_head_index ∧
      b.new_object.2.base = b.base ∧
      b.new_object.2.entries_per_block = b.entries_per_block ∧
      ∀ j, j ≠ b.free_head_index →
        b.new_object.2.indices.getD j 0 = b.indices.getD j 0) := by
  constructor
  · exact new_object_of_eq b
  · intro hne
    have hlt : b.free_head_index < b.entries_per_block := by
      omega
    have hilen : b.free_head_index < b.indices.length := by rw [hlen]; exact hlt
    have heq := new_object_of_ne b hne
    refine ⟨by rw [heq], by rw [heq], ?_, by rw [heq], by rw [heq], ?_⟩
    · rw [heq]
      exact getD_set_self b.indices _ _ 0 hilen
    · intro j hj
      rw [heq]
      exact getD_set_ne b.indices _ _ (fun hc => hj hc.symm)

/-- Closed witness for C2 at a concrete two-slot block. -/
theorem c2_new_object_functional_spec_witness :
    (MemoryPoolBlock.create 2 5).new_object.1
      = some ((MemoryPoolBlock.create 2 5).base
          + (MemoryPoolBlock.create 2 5).free_head_index) :=
  ((c2_new_object_functional_spec (MemoryPoolBlock.create 2 5)
    (by decide) (by decide)).2 (by decide)).1

/-- C5: LIFO reuse — releasing the live object in slot `i` and then
allocating again immediately returns the very same address, regardless of
which other slots hold live objects. -/
theorem c5_lifo_reuse (b : MemoryPoolBlock) (i : Nat)
    (hi : i < b.entries_per_block) (hlive : b.indices.getD i 0 = i) :
    ((b.delete_object (some (b.base + i))).new_object).1 = some (b.base + i) := by
  have hsub : b.base + i - b.base = i := by omega
  rw [delete_object_some, hsub]
  rw [new_object_of_ne _ (by show i ≠ b.entries_per_block; omega)]

/-- Closed witness for C5: a block with two live objects; releasing the one
in slot 0 and allocating again returns slot 0's address. -/
theorem c5_lifo_reuse_witness :
    (((MemoryPoolBlock.create 2 7).new_object.2.new_object.2.delete_object
        (some ((MemoryPoolBlock.create 2 7).new_object.2.new_object.2.base + 0))).new_object).1
      = some ((MemoryPoolBlock.create 2 7).new_object.2.new_object.2.base + 0) :=
  c5_lifo_reuse _ 0 (by decide) (by decide)

/-- C10: a `FixedMemoryPool` built with `max_entries = 0` (equivalently, a
block of capacity 0) starts with `free_head_index_ = 0` equal to the
sentinel, so every `new_object` call returns null and leaves the state
unchanged. -/
theorem c10_zero_capacity_alloc_null (base : Nat) :
    (FixedMemoryPool.create 0 base).new_object
      = (none, FixedMemoryPool.create 0 base) ∧
    (MemoryPoolBlock.create 0 base).new_object
      = (none, MemoryPoolBlock.create 0 base) :=
  ⟨rfl, rfl⟩

/-! ### Byte-level layout of `MemoryPoolBlock<T>::create` (claim C7)

The layout arithmetic of `create`, `indices_begin` and `memory_begin` in
bytes.  `sizeof(MemoryPoolBlock<T>)` is 8 (two `uint32_t` fields, no
padding) and `sizeof(index_t)` is 4 on every platform the header targets. -/

/-- Byte size of the block header `MemoryPoolBlock<T>` (two `uint32_t`). -/
def header_size : Nat := 8

/-- Byte size of one `detail::index_t` (`uint32_t`). -/
def sizeof_index_t : Nat := 4

/-- `detail::MIN_BLOCK_ALIGN`: alignment passed to `aligned_malloc`. -/
def MIN_BLOCK_ALIGN : Nat := 64

/-- Modelled from the spec: the definition of `detail::align_to` is not part
of `memory_pool.hpp` (the header only declares it); the spec describes
`round_up_to_alignment(n, align)` as the smallest multiple of `align` that
is `>= n`. -/
def align_to (n align : Nat) : Nat := (n + align - 1) / align * align

/-- Byte size reserved by `create` for the index region:
`align_to(sizeof(index_t) * entries_per_block, alignof(T))`. -/
def indices_size (entries_per_block alignT : Nat) : Nat :=
  align_to (sizeof_index_t * entries_per_block) alignT

/-- Byte offset of `memory_begin()` from the block start, as the source
computes it: `indices_begin() + entries_per_block_` in `index_t*`
arithmetic, i.e. `header_size + sizeof(index_t) * entries_per_block` —
without the alignment padding `create` sized the region with. -/
def memory_begin_off (entries_per_block : Nat) : Nat :=
  header_size + sizeof_index_t * entries_per_block

/-- Second assertion in `MemoryPoolBlock<T>::create`:
`memory_begin() == ptr + header_size + indices_size`. -/
def create_assert_memory_begin (entries_per_block alignT : Nat) : Prop :=
  memory_begin_off entries_per_block
    = header_size + indices_size entries_per_block alignT

/-- C7 is refuted by the source (code bug): for an element type with
`alignof(T) = 8` and one entry per block, `memory_begin()` sits 12 bytes
past the 64-aligned block start, so the returned slot address is ≡ 4
(mod 8) instead of 0, and the source's own layout assertion in `create`
(which accounts for the `align_to` padding that `memory_begin` ignores) is
false for these parameters. -/
theorem c7_alignment_code_bug :
    (∀ s, s % MIN_BLOCK_ALIGN = 0 → (s + memory_begin_off 1) % 8 = 4) ∧
    ¬ create_assert_memory_begin 1 8 := by
  constructor
  · intro s hs
    have h64 : s % 64 = 0 := hs
    have h12 : memory_begin_off 1 = 12 := rfl
    omega
  · intro hcontra
    have : (12 : Nat) = 16 := hcontra
    omega

/-- Closed witness for the refutation of C7, at the concrete 64-aligned
block address 64. -/
theorem c7_alignment_code_bug_witness :
    (64 % MIN_BLOCK_ALIGN = 0) ∧ ((64 + memory_begin_off 1) % 8 = 4) :=
  ⟨by decide, c7_alignment_code_bug.1 64 (by decide)⟩

/-! ### `DynamicMemoryPool` -/

/-- Model of `DynamicMemoryPool<T>::BlockInfo`: cached free count
(`num_free_`), cached storage address (`offset_`, the block's
`memory_offset()`), and the block itself (held by pointer in the source;
its state is inlined here). -/
structure BlockInfo where
  num_free : Nat
  offset : Nat
  block : MemoryPoolBlock
deriving DecidableEq, Repr

instance : Inhabited BlockInfo :=
  ⟨{ num_free := 0, offset := 0
     block := { free_head_index := 0, entries_per_block := 0, indices := [], base := 0 } }⟩

/-- Model of `DynamicMemoryPool<T>`: the `BlockInfo` array (`block_info_`,
walked up to `num_blocks_` entries), the block count, the free-block hint
(`free_block_index_`) and the fixed per-block capacity. -/
structure DynamicMemoryPool where
  block_info : List BlockInfo
  num_blocks : Nat
  free_block_index : Nat
  entries_per_block : Nat
deriving DecidableEq, Repr

/-- Result of an operation that may exercise the unchecked `realloc` in
`add_block`: `crash` models the null-pointer write that follows a failed
`realloc` (the source assigns `block_info_ = realloc(...)` and immediately
writes through it) — undefined behaviour, not a null return. -/
inductive CallResult (α : Type) where
  | ok (val : α)
  | crash
deriving DecidableEq, Repr

/-- Model of `DynamicMemoryPool<T>::add_block`.  `create_ok` says whether
`Block::create`'s `aligned_malloc` succeeds, and `base` is the storage
address the host allocator hands to the new block in that case;
`realloc_ok` says whether growing `block_info_` succeeds.  A failed
`Block::create` is checked and reported by a null return with the pool
unchanged; a failed `realloc` is not checked and crashes.  On success the
record is written at `block_info_[free_block_index_]`, which the entry
assertion `free_block_index_ == num_blocks_` pins to the appended slot; the
model returns the new record's index (the source returns its address). -/
def DynamicMemoryPool.add_block (p : DynamicMemoryPool)
    (create_ok realloc_ok : Bool) (base : Nat) :
    CallResult (Option Nat × DynamicMemoryPool) :=
  if create_ok then
    if realloc_ok then
      let block := MemoryPoolBlock.create p.entries_per_block base
      CallResult.ok (some p.free_block_index,
        { p with
          num_blocks := p.num_blocks + 1
          block_info := p.block_info ++
            [{ num_free := p.entries_per_block, offset := block.base, block := block }] })
    else
      CallResult.crash
  else
    CallResult.ok (none, p)

/-- Scan helper for `new_object`'s search loop: starting at absolute record
index `k`, skip records with `num_free_ == 0`, returning the absolute index
of the first record with free space or the one-past-the-end index. -/
def firstFreeFrom : List BlockInfo → Nat → Nat
  | [], k => k
  | info :: rest, k => if info.num_free == 0 then firstFreeFrom rest (k + 1) else k

/-- Index computed by `new_object`'s search loop, which starts at
`free_block_index_`. -/
def DynamicMemoryPool.find_free_block (p : DynamicMemoryPool) : Nat :=
  firstFreeFrom (p.block_info.drop p.free_block_index) p.free_block_index

/-- Tail of `new_object` once the target record (index `j`) is chosen:
construct from its block and decrement the cached `num_free_`. -/
def DynamicMemoryPool.alloc_from (p : DynamicMemoryPool) (j : Nat) :
    Option Nat × DynamicMemoryPool :=
  let info := p.block_info.getD j default
  let r := info.block.new_object
  (r.1,
    { p with
      block_info := p.block_info.set j
        { info with block := r.2, num_free := info.num_free - 1 } })

/-- Model of `DynamicMemoryPool<T>::new_object`: search for a record with
free space starting at the hint; store the stopping index back into
`free_block_index_`; if the search ran off the end call `add_block`,
returning null if it fails; finally construct from the chosen block and
decrement its cached free count. -/
def DynamicMemoryPool.new_object (p : DynamicMemoryPool)
    (create_ok realloc_ok : Bool) (base : Nat) :
    CallResult (Option Nat × DynamicMemoryPool) :=
  let j := p.find_free_block
  let p1 := { p with free_block_index := j }
  if j = p.num_blocks then
    match p1.add_block create_ok realloc_ok base with
    | CallResult.crash => CallResult.crash
    | CallResult.ok (none, p2) => CallResult.ok (none, p2)
    | CallResult.ok (some k, p2) => CallResult.ok (p2.alloc_from k)
  else
    CallResult.ok (p1.alloc_from j)

/-- Scan helper for `delete_object`: absolute index of the first record
whose storage range `[offset_, offset_ + entries_per_block)` contains the
pointer. -/
def findOwnerFrom (entries_per_block ptr : Nat) :
    List BlockInfo → Nat → Option Nat
  | [], _ => none
  | info :: rest, k =>
    if info.offset ≤ ptr ∧ ptr < info.offset + entries_per_block then some k
    else findOwnerFrom entries_per_block ptr rest (k + 1)

/-- Model of `DynamicMemoryPool<T>::delete_object`: linear scan of the
records for the one whose storage range contains the pointer; when none
matches the call returns with no effect.  On a match the release is
delegated to the owning block, its cached `num_free_` is incremented, and
`free_block_index_` is lowered to that record's index if it precedes the
current hint. -/
def DynamicMemoryPool.delete_object (p : DynamicMemoryPool) (ptr : Nat) :
    DynamicMemoryPool :=
  match findOwnerFrom p.entries_per_block ptr p.block_info 0 with
  | none => p
  | some k =>
    let info := p.block_info.getD k default
    { p with
      block_info := p.block_info.set k
        { info with
          block := info.block.delete_object (some ptr)
          num_free := info.num_free + 1 }
      free_block_index := if k < p.free_block_index then k else p.free_block_index }

/-- Model of `DynamicMemoryPool<T>::for_each`: records are visited in
creation order; one whose cached `num_free_` equals the capacity is
skipped, otherwise its block's `for_each` runs. -/
def DynamicMemoryPool.for_each_list (p : DynamicMemoryPool) : List Nat :=
  (p.block_info.map (fun info =>
    if info.num_free < p.entries_per_block then info.block.for_each_list
    else [])).flatten

/-- Model of `DynamicMemoryPool<T>::get_stats`: `block_count` counts the
records walked (`num_blocks_`); `allocation_count` sums
`count_allocations()` over the records whose cached `num_free_` is below
the capacity. -/
def DynamicMemoryPool.get_stats (p : DynamicMemoryPool) : MemoryPoolStats :=
  { block_count := p.num_blocks
    allocation_count := (p.block_info.map (fun info =>
      if info.num_free < p.entries_per_block then info.block.count_allocations
      else 0)).sum }

/-- Model of the `DynamicMemoryPool` constructor: empty state, then one
`add_block` (shown here with a succeeding host allocator). -/
def DynamicMemoryPool.create (entries_per_block base : Nat) : DynamicMemoryPool :=
  match DynamicMemoryPool.add_block
      { block_info := [], num_blocks := 0, free_block_index := 0
        entries_per_block := entries_per_block } true true base with
  | CallResult.ok r => r.2
  | CallResult.crash =>
      { block_info := [], num_blocks := 0, free_block_index := 0
        entries_per_block := entries_per_block }

/-- One client operation on a dynamic pool.  An `alloc` carries the host
allocator oracle for a potential `add_block` (`create_ok`, and the storage
address `base` a new block would get); `dealloc` carries the pointer
being released.  The metadata `realloc` is assumed to succeed during runs
(its failure is the subject of claim C8). -/
inductive DynOp where
  | alloc (create_ok : Bool) (base : Nat)
  | dealloc (ptr : Nat)
deriving DecidableEq, Repr

/-- Allocation step of a run (with `realloc_ok = true`, under which
`new_object` never crashes; the `crash` branch is dead). -/
def DynamicMemoryPool.alloc_step (p : DynamicMemoryPool)
    (create_ok : Bool) (base : Nat) : Option Nat × DynamicMemoryPool :=
  match p.new_object create_ok true base with
  | CallResult.ok r => r
  | CallResult.crash => (none, p)

/-- Run of a trace of client operations; returns the final pool, the number
of successful allocations, and the number of releases performed. -/
def DynamicMemoryPool.run (p : DynamicMemoryPool) :
    List DynOp → DynamicMemoryPool × Nat × Nat
  | [] => (p, 0, 0)
  | DynOp.alloc ok base :: t =>
    let r := p.alloc_step ok base
    let rest := DynamicMemoryPool.run r.2 t
    (rest.1, rest.2.1 + (if r.1.isSome then 1 else 0), rest.2.2)
  | DynOp.dealloc ptr :: t =>
    let rest := DynamicMemoryPool.run (p.delete_object ptr) t
    (rest.1, rest.2.1, rest.2.2 + 1)

/-- Freshness of a storage range offered by the host allocator: disjoint
from every owned block's range (which a real allocator guarantees for a new
allocation). -/
def DynamicMemoryPool.fresh_base (p : DynamicMemoryPool) (base : Nat) : Bool :=
  p.block_info.all (fun info =>
    decide (base + p.entries_per_block ≤ info.offset) ||
    decide (info.offset + p.entries_per_block ≤ base))

/-- Ownership check for a pointer: some owned record's storage range
contains it and the slot it names is currently marked allocated. -/
def DynamicMemoryPool.owns_live (p : DynamicMemoryPool) (ptr : Nat) : Bool :=
  p.block_info.any (fun info =>
    decide (info.offset ≤ ptr) &&
    decide (ptr < info.offset + p.entries_per_block) &&
    (info.block.indices.getD (ptr - info.offset) 0 == ptr - info.offset))

/-- Validity of a trace (the ownership contract plus a well-behaved host
allocator): every allocation's prospective storage range is fresh and every
release targets a currently live object of the pool. -/
def DynamicMemoryPool.valid_trace (p : DynamicMemoryPool) : List DynOp → Bool
  | [] => true
  | DynOp.alloc ok base :: t =>
    p.fresh_base base && DynamicMemoryPool.valid_trace (p.alloc_step ok base).2 t
  | DynOp.dealloc ptr :: t =>
    p.owns_live ptr && DynamicMemoryPool.valid_trace (p.delete_object ptr) t

/-- Sum of the true per-block live counts. -/
def DynamicMemoryPool.total_live (p : DynamicMemoryPool) : Nat :=
  (p.block_info.map (fun info => countLive info.block)).sum

/-- Sum of the cached per-block free counts. -/
def DynamicMemoryPool.total_free (p : DynamicMemoryPool) : Nat :=
  (p.block_info.map (fun info => info.num_free)).sum

/-- Invariant of `DynamicMemoryPool`, established by the constructor and
maintained by every valid operation: `num_blocks_` matches the metadata
array; the hint is bounded and every record before it is exhausted; every
record caches its block's free count and storage address faithfully, and
its block is well formed with the pool's capacity; distinct blocks' storage
ranges are disjoint. -/
structure DynWF (p : DynamicMemoryPool) : Prop where
  blocks_len : p.num_blocks = p.block_info.length
  hint_le : p.free_block_index ≤ p.num_blocks
  hint_zero : ∀ j, j < p.free_block_index →
    (p.block_info.getD j default).num_free = 0
  info_ok : ∀ info ∈ p.block_info,
    BlockWF info.block ∧
    info.block.entries_per_block = p.entries_per_block ∧
    info.offset = info.block.base ∧
    info.num_free + countLive info.block = p.entries_per_block
  disj : (p.block_info.map BlockInfo.offset).Pairwise (fun a b =>
    a + p.entries_per_block ≤ b ∨ b + p.entries_per_block ≤ a)

/-! ### Small facts about the block operations -/

@[simp]
theorem new_object_snd_entries (b : MemoryPoolBlock) :
    b.new_object.2.entries_per_block = b.entries_per_block := by
  by_cases h : b.free_head_index = b.entries_per_block
  · rw [new_object_of_eq b h]
  · rw [new_object_of_ne b h]

@[simp]
theorem new_object_snd_base (b : MemoryPoolBlock) :
    b.new_object.2.base = b.base := by
  by_cases h : b.free_head_index = b.entries_per_block
  · rw [new_object_of_eq b h]
  · rw [new_object_of_ne b h]

@[simp]
theorem delete_object_entries (b : MemoryPoolBlock) (ptr : Option Nat) :
    (b.delete_object ptr).entries_per_block = b.entries_per_block := by
  cases ptr <;> rfl

@[simp]
theorem delete_object_base (b : MemoryPoolBlock) (ptr : Option Nat) :
    (b.delete_object ptr).base = b.base := by
  cases ptr <;> rfl

theorem count_allocations_eq_countLive (b : MemoryPoolBlock) :
    b.count_allocations = countLive b := by
  unfold MemoryPoolBlock.count_allocations MemoryPoolBlock.for_each_list countLive
  rw [List.length_map, List.countP_eq_length_filter]

theorem for_each_list_length (b : MemoryPoolBlock) :
    b.for_each_list.length = countLive b :=
  count_allocations_eq_countLive b

theorem for_each_list_eq_nil_of_zero (b : MemoryPoolBlock)
    (h : countLive b = 0) : b.for_each_list = [] := by
  refine List.length_eq_zero.mp ?_
  rw [for_each_list_length, h]

theorem mem_for_each_list {b : MemoryPoolBlock} {a : Nat} :
    a ∈ b.for_each_list ↔
      ∃ i, i < b.entries_per_block ∧ b.indices.getD i 0 = i ∧ a = b.base + i := by
  unfold MemoryPoolBlock.for_each_list
  simp only [List.mem_map, List.mem_filter, List.mem_range, beq_iff_eq]
  constructor
  · rintro ⟨i, ⟨hi, hlive⟩, rfl⟩
    exact ⟨i, hi, hlive, rfl⟩
  · rintro ⟨i, hi, hlive, rfl⟩
    exact ⟨i, ⟨hi, hlive⟩, rfl⟩

theorem mem_for_each_list_bounds {b : MemoryPoolBlock} {a : Nat}
    (h : a ∈ b.for_each_list) :
    b.base ≤ a ∧ a < b.base + b.entries_per_block := by
  obtain ⟨i, hi, -, rfl⟩ := mem_for_each_list.mp h
  omega

theorem for_each_list_nodup (b : MemoryPoolBlock) : b.for_each_list.Nodup := by
  unfold MemoryPoolBlock.for_each_list
  refine List.Nodup.map (fun x y hxy => Nat.add_left_cancel hxy) ?_
  exact List.Nodup.filter _ (List.nodup_range _)

theorem for_each_list_sorted (b : MemoryPoolBlock) :
    b.for_each_list.Pairwise (· < ·) := by
  unfold MemoryPoolBlock.for_each_list
  refine List.Pairwise.map _ (fun x y hxy => Nat.add_lt_add_left hxy b.base) ?_
  exact List.Pairwise.filter _ (List.pairwise_lt_range _)

/-! ### More list helpers -/

theorem getD_mem {α : Type _} (l : List α) (j : Nat) (d : α) (h : j < l.length) :
    l.getD j d ∈ l := by
  rw [List.getD_eq_getElem l d h]
  exact List.getElem_mem _

theorem sum_map_set {α : Type _} [Inhabited α] (f : α → Nat) :
    ∀ (l : List α) (j : Nat) (a : α), j < l.length →
      ((l.set j a).map f).sum + f (l.getD j default) = (l.map f).sum + f a := by
  intro l
  induction l with
  | nil =>
    intro j a h
    simp at h
  | cons x xs ih =>
    intro j a h
    cases j with
    | zero =>
      simp
      omega
    | succ j' =>
      have h' : j' < xs.length := by simpa using h
      have hrec := ih j' a h'
      show ((x :: xs.set j' a).map f).sum + f ((x :: xs).getD (j' + 1) default)
          = ((x :: xs).map f).sum + f a
      rw [List.getD_cons_succ, List.map_cons, List.sum_cons, List.map_cons,
        List.sum_cons]
      omega

theorem set_getD_self {α : Type _} :
    ∀ (l : List α) (j : Nat) (d : α), j < l.length → l.set j (l.getD j d) = l := by
  intro l
  induction l with
  | nil =>
    intro j d h
    simp at h
  | cons x xs ih =>
    intro j d h
    cases j with
    | zero => simp
    | succ j' =>
      have h' : j' < xs.length := by simpa using h
      show x :: xs.set j' ((x :: xs).getD (j' + 1) d) = x :: xs
      rw [List.getD_cons_succ, ih j' d h']

theorem set_append_length {α : Type _} :
    ∀ (l : List α) (x v : α), (l ++ [x]).set l.length v = l ++ [v] := by
  intro l
  induction l with
  | nil => intro x v; rfl
  | cons y ys ih =>
    intro x v
    simp only [List.cons_append, List.length_cons, List.set_cons_succ]
    rw [ih x v]

/-! ### The `new_object` search loop -/

theorem firstFreeFrom_spec :
    ∀ (l : List BlockInfo) (k : Nat),
      k ≤ firstFreeFrom l k ∧
      firstFreeFrom l k ≤ k + l.length ∧
      (∀ m, k ≤ m → m < firstFreeFrom l k →
        (l.getD (m - k) default).num_free = 0) ∧
      (firstFreeFrom l k < k + l.length →
        (l.getD (firstFreeFrom l k - k) default).num_free ≠ 0) := by
  intro l
  induction l with
  | nil =>
    intro k
    refine ⟨Nat.le_refl k, by simp [firstFreeFrom], ?_, ?_⟩
    · intro m h1 h2
      simp [firstFreeFrom] at h2
      omega
    · intro hcontra
      simp [firstFreeFrom] at hcontra
  | cons info rest ih =>
    intro k
    by_cases h : info.num_free = 0
    · have heq : firstFreeFrom (info :: rest) k = firstFreeFrom rest (k + 1) := by
        simp [firstFreeFrom, h]
      obtain ⟨ih1, ih2, ih3, ih4⟩ := ih (k + 1)
      rw [heq]
      refine ⟨by omega, by simp only [List.length_cons]; omega, ?_, ?_⟩
      · intro m h1 h2
        rcases Nat.eq_or_lt_of_le h1 with heqm | hlt
        · rw [← heqm, Nat.sub_self, List.getD_cons_zero]
          exact h
        · have := ih3 m hlt h2
          have hsub : m - k = (m - (k + 1)) + 1 := by omega
          rw [hsub, List.getD_cons_succ]
          exact this
      · intro hlt
        have hge : k + 1 ≤ firstFreeFrom rest (k + 1) := ih1
        have hlt' : firstFreeFrom rest (k + 1) < (k + 1) + rest.length := by
          simp only [List.length_cons] at hlt
          omega
        have := ih4 hlt'
        have hsub : firstFreeFrom rest (k + 1) - k
            = (firstFreeFrom rest (k + 1) - (k + 1)) + 1 := by omega
        rw [hsub, List.getD_cons_succ]
        exact this
    · have heq : firstFreeFrom (info :: rest) k = k := by
        simp [firstFreeFrom, h]
      rw [heq]
      refine ⟨Nat.le_refl k, by simp only [List.length_cons]; omega, ?_, ?_⟩
      · intro m h1 h2
        omega
      · intro _
        rw [Nat.sub_self, List.getD_cons_zero]
        exact h

theorem find_free_block_spec {p : DynamicMemoryPool} (hw : DynWF p) :
    p.free_block_index ≤ p.find_free_block ∧
    p.find_free_block ≤ p.num_blocks ∧
    (∀ m, m < p.find_free_block → (p.block_info.getD m default).num_free = 0) ∧
    (p.find_free_block < p.num_blocks →
      (p.block_info.getD p.find_free_block default).num_free ≠ 0) := by
  have hdef : p.find_free_block
      = firstFreeFrom (p.block_info.drop p.free_block_index) p.free_block_index := rfl
  obtain ⟨h1, h2, h3, h4⟩ :=
    firstFreeFrom_spec (p.block_info.drop p.free_block_index) p.free_block_index
  have hlen : (p.block_info.drop p.free_block_index).length
      = p.block_info.length - p.free_block_index := List.length_drop _ _
  have hhl : p.free_block_index ≤ p.block_info.length := by
    have := hw.hint_le
    rw [hw.blocks_len] at this
    exact this
  have hgd : ∀ j, (p.block_info.drop p.free_block_index).getD j default
      = p.block_info.getD (p.free_block_index + j) default := by
    intro j
    rw [List.getD_eq_getElem?_getD, List.getD_eq_getElem?_getD, List.getElem?_drop]
  refine ⟨by rw [hdef]; exact h1, ?_, ?_, ?_⟩
  · rw [hdef, hw.blocks_len]
    omega
  · intro m hm
    rw [hdef] at hm
    by_cases hmf : m < p.free_block_index
    · exact hw.hint_zero m hmf
    · have := h3 m (by omega) hm
      rw [hgd] at this
      rwa [show p.free_block_index + (m - p.free_block_index) = m by omega] at this
  · intro hlt
    rw [hdef] at hlt ⊢
    rw [hw.blocks_len] at hlt
    have := h4 (by omega)
    rw [hgd] at this
    rwa [show p.free_block_index
        + (firstFreeFrom (p.block_info.drop p.free_block_index) p.free_block_index
            - p.free_block_index)
        = firstFreeFrom (p.block_info.drop p.free_block_index) p.free_block_index
      by omega] at this

theorem total_free_eq_zero_iff {p : DynamicMemoryPool} :
    p.total_free = 0 ↔ ∀ info ∈ p.block_info, info.num_free = 0 := by
  unfold DynamicMemoryPool.total_free
  rw [List.sum_eq_zero_iff]
  constructor
  · intro h info hmem
    exact h _ (List.mem_map.mpr ⟨info, hmem, rfl⟩)
  · intro h x hx
    obtain ⟨info, hmem, rfl⟩ := List.mem_map.mp hx
    exact h info hmem

theorem find_free_block_end_iff {p : DynamicMemoryPool} (hw : DynWF p) :
    p.find_free_block = p.num_blocks ↔ p.total_free = 0 := by
  obtain ⟨hge, hle, hzero, hnz⟩ := find_free_block_spec hw
  constructor
  · intro hend
    rw [total_free_eq_zero_iff]
    intro info hmem
    obtain ⟨n, hn, hget⟩ := List.getElem_of_mem hmem
    have hn' : n < p.num_blocks := by rw [hw.blocks_len]; exact hn
    have := hzero n (by omega)
    rwa [List.getD_eq_getElem _ _ hn, hget] at this
  · intro hfree
    by_contra hne
    have hlt : p.find_free_block < p.num_blocks := by omega
    have hjlen : p.find_free_block < p.block_info.length := by
      rw [← hw.blocks_len]
      exact hlt
    have hmem := getD_mem p.block_info p.find_free_block default hjlen
    exact hnz hlt ((total_free_eq_zero_iff.mp hfree) _ hmem)

/-! ### The `delete_object` search loop -/

theorem findOwnerFrom_none_spec (epb ptr : Nat) :
    ∀ (l : List BlockInfo) (k : Nat), findOwnerFrom epb ptr l k = none →
      ∀ info ∈ l, ¬(info.offset ≤ ptr ∧ ptr < info.offset + epb) := by
  intro l
  induction l with
  | nil =>
    intro k _ info hmem
    cases hmem
  | cons x xs ih =>
    intro k h info hmem
    by_cases hx : x.offset ≤ ptr ∧ ptr < x.offset + epb
    · simp [findOwnerFrom, hx] at h
    · rcases List.mem_cons.mp hmem with rfl | hmem'
      · exact hx
      · have h' : findOwnerFrom epb ptr xs (k + 1) = none := by
          simpa [findOwnerFrom, hx] using h
        exact ih (k + 1) h' info hmem'

theorem findOwnerFrom_some_spec (epb ptr : Nat) :
    ∀ (l : List BlockInfo) (k m : Nat), findOwnerFrom epb ptr l k = some m →
      k ≤ m ∧ m - k < l.length ∧
      ((l.getD (m - k) default).offset ≤ ptr ∧
        ptr < (l.getD (m - k) default).offset + epb) := by
  intro l
  induction l with
  | nil =>
    intro k m h
    simp [findOwnerFrom] at h
  | cons x xs ih =>
    intro k m h
    by_cases hx : x.offset ≤ ptr ∧ ptr < x.offset + epb
    · have hkm : k = m := by simpa [findOwnerFrom, hx] using h
      subst hkm
      refine ⟨Nat.le_refl k, by simp, ?_⟩
      rw [Nat.sub_self, List.getD_cons_zero]
      exact hx
    · have h' : findOwnerFrom epb ptr xs (k + 1) = some m := by
        simpa [findOwnerFrom, hx] using h
      obtain ⟨ih1, ih2, ih3⟩ := ih (k + 1) m h'
      refine ⟨by omega, by simp only [List.length_cons]; omega, ?_⟩
      have hsub : m - k = (m - (k + 1)) + 1 := by omega
      rw [hsub, List.getD_cons_succ]
      exact ih3

/-- Under the disjointness invariant, at most one record's storage range can
contain a given pointer. -/
theorem owner_unique {p : DynamicMemoryPool} (hw : DynWF p) {i j ptr : Nat}
    (hi : i < p.block_info.length) (hj : j < p.block_info.length)
    (hci : (p.block_info.getD i default).offset ≤ ptr ∧
      ptr < (p.block_info.getD i default).offset + p.entries_per_block)
    (hcj : (p.block_info.getD j default).offset ≤ ptr ∧
      ptr < (p.block_info.getD j default).offset + p.entries_per_block) :
    i = j := by
  have key : ∀ a b : Nat, a < b → b < p.block_info.length →
      ¬((p.block_info.getD a default).offset ≤ ptr ∧
          ptr < (p.block_info.getD a default).offset + p.entries_per_block) ∨
      ¬((p.block_info.getD b default).offset ≤ ptr ∧
          ptr < (p.block_info.getD b default).offset + p.entries_per_block) := by
    intro a b hab hbl
    have hal : a < p.block_info.length := by omega
    have hrel := (List.pairwise_iff_getElem.mp hw.disj) a b
      (by simpa using hal) (by simpa using hbl) hab
    rw [List.getElem_map, List.getElem_map] at hrel
    rw [List.getD_eq_getElem _ _ hal, List.getD_eq_getElem _ _ hbl]
    rcases hrel with hr | hr
    · by_cases hca : (p.block_info[a]).offset ≤ ptr ∧
          ptr < (p.block_info[a]).offset + p.entries_per_block
      · right
        intro hcb
        omega
      · left
        exact hca
    · by_cases hca : (p.block_info[a]).offset ≤ ptr ∧
          ptr < (p.block_info[a]).offset + p.entries_per_block
      · right
        intro hcb
        omega
      · left
        exact hca
  by_contra hne
  rcases Nat.lt_or_ge i j with hlt | hge
  · rcases key i j hlt hj with hk | hk
    · exact hk hci
    · exact hk hcj
  · have hlt : j < i := by omega
    rcases key j i hlt hi with hk | hk
    · exact hk hcj
    · exact hk hci

/-! ### Unfolding the dynamic-pool operations -/

theorem alloc_from_fst (p : DynamicMemoryPool) (j : Nat) :
    (p.alloc_from j).1 = (p.block_info.getD j default).block.new_object.1 := rfl

theorem alloc_from_snd (p : DynamicMemoryPool) (j : Nat) :
    (p.alloc_from j).2 = { p with
      block_info := p.block_info.set j
        { num_free := (p.block_info.getD j default).num_free - 1
          offset := (p.block_info.getD j default).offset
          block := (p.block_info.getD j default).block.new_object.2 } } := rfl

theorem add_block_ok (p : DynamicMemoryPool) (base : Nat) :
    p.add_block true true base = CallResult.ok (some p.free_block_index,
      { p with
        num_blocks := p.num_blocks + 1
        block_info := p.block_info ++
          [{ num_free := p.entries_per_block
             offset := (MemoryPoolBlock.create p.entries_per_block base).base
             block := MemoryPoolBlock.create p.entries_per_block base }] }) := rfl

theorem add_block_create_fail (p : DynamicMemoryPool) (rok : Bool) (base : Nat) :
    p.add_block false rok base = CallResult.ok (none, p) := rfl

theorem new_object_found (p : DynamicMemoryPool) (ok rok : Bool) (base : Nat)
    (hne : p.find_free_block ≠ p.num_blocks) :
    p.new_object ok rok base = CallResult.ok
      (({ p with free_block_index := p.find_free_block } : DynamicMemoryPool).alloc_from
        p.find_free_block) := by
  unfold DynamicMemoryPool.new_object
  simp only [if_neg hne]

theorem new_object_end (p : DynamicMemoryPool) (ok rok : Bool) (base : Nat)
    (hend : p.find_free_block = p.num_blocks) :
    p.new_object ok rok base =
      match ({ p with free_block_index := p.find_free_block } :
          DynamicMemoryPool).add_block ok rok base with
      | CallResult.crash => CallResult.crash
      | CallResult.ok (none, p2) => CallResult.ok (none, p2)
      | CallResult.ok (some k, p2) => CallResult.ok (p2.alloc_from k) := by
  unfold DynamicMemoryPool.new_object
  simp only [if_pos hend]

theorem alloc_step_found (p : DynamicMemoryPool) (ok : Bool) (base : Nat)
    (hne : p.find_free_block ≠ p.num_blocks) :
    p.alloc_step ok base
      = ({ p with free_block_index := p.find_free_block } :
          DynamicMemoryPool).alloc_from p.find_free_block := by
  unfold DynamicMemoryPool.alloc_step
  rw [new_object_found p ok true base hne]

/-! ### Invariant preservation for the dynamic pool -/

/-- Replacing record `j` by one that caches a well-formed block at the same
storage address with a consistent free count preserves the pool invariant,
for any new hint that is bounded and keeps the exhausted-prefix property. -/
theorem dynWF_set_record {p : DynamicMemoryPool} (hw : DynWF p) {j : Nat}
    (hj : j < p.block_info.length) {N : BlockInfo} (f' : Nat)
    (hoff : N.offset = (p.block_info.getD j default).offset)
    (hbwf : BlockWF N.block)
    (hent : N.block.entries_per_block = p.entries_per_block)
    (hobase : N.offset = N.block.base)
    (hcache : N.num_free + countLive N.block = p.entries_per_block)
    (hf'le : f' ≤ p.num_blocks)
    (hf'zero : ∀ m, m < f' → ((p.block_info.set j N).getD m default).num_free = 0) :
    DynWF { block_info := p.block_info.set j N
            num_blocks := p.num_blocks
            free_block_index := f'
            entries_per_block := p.entries_per_block } := by
  refine ⟨?_, hf'le, hf'zero, ?_, ?_⟩
  · show p.num_blocks = (p.block_info.set j N).length
    rw [List.length_set]
    exact hw.blocks_len
  · intro info hmem
    rcases List.mem_or_eq_of_mem_set hmem with hold | heq
    · exact hw.info_ok info hold
    · subst heq
      exact ⟨hbwf, hent, hobase, hcache⟩
  · show ((p.block_info.set j N).map BlockInfo.offset).Pairwise _
    rw [List.map_set, hoff]
    have hmapD : BlockInfo.offset (p.block_info.getD j default)
        = (p.block_info.map BlockInfo.offset).getD j (BlockInfo.offset default) := by
      rw [List.getD_map]
    rw [hmapD, set_getD_self _ _ _ (by rw [List.length_map]; exact hj)]
    exact hw.disj

/-- Appending a fresh, consistent record (as `add_block` followed by the
allocation from the new block does) preserves the pool invariant. -/
theorem dynWF_append_record {p : DynamicMemoryPool} (hw : DynWF p)
    {N : BlockInfo}
    (hbwf : BlockWF N.block)
    (hent : N.block.entries_per_block = p.entries_per_block)
    (hobase : N.offset = N.block.base)
    (hcache : N.num_free + countLive N.block = p.entries_per_block)
    (hfresh : ∀ info ∈ p.block_info,
      N.offset + p.entries_per_block ≤ info.offset ∨
      info.offset + p.entries_per_block ≤ N.offset)
    (f' : Nat) (hf'le : f' ≤ p.num_blocks + 1)
    (hf'zero : ∀ m, m < f' → ((p.block_info ++ [N]).getD m default).num_free = 0) :
    DynWF { block_info := p.block_info ++ [N]
            num_blocks := p.num_blocks + 1
            free_block_index := f'
            entries_per_block := p.entries_per_block } := by
  refine ⟨?_, hf'le, hf'zero, ?_, ?_⟩
  · show p.num_blocks + 1 = (p.block_info ++ [N]).length
    rw [List.length_append, List.length_cons, List.length_nil, hw.blocks_len]
  · intro info hmem
    rcases List.mem_append.mp hmem with hold | hnew
    · exact hw.info_ok info hold
    · have heq : info = N := by simpa using hnew
      subst heq
      exact ⟨hbwf, hent, hobase, hcache⟩
  · show ((p.block_info ++ [N]).map BlockInfo.offset).Pairwise _
    rw [List.map_append]
    rw [List.pairwise_append]
    refine ⟨hw.disj, by simp, ?_⟩
    intro a ha b hb
    obtain ⟨infoa, hainfo, rfl⟩ := List.mem_map.mp ha
    have hb' : b = N.offset := by simpa using hb
    subst hb'
    rcases hfresh infoa hainfo with hr | hr
    · exact Or.inr hr
    · exact Or.inl hr

/-- Effect on the live total of replacing record `j`. -/
theorem total_live_set {p : DynamicMemoryPool} {j : Nat}
    (hj : j < p.block_info.length) (nf off : Nat) (blk : MemoryPoolBlock)
    (nb f' : Nat) :
    (DynamicMemoryPool.mk (p.block_info.set j ⟨nf, off, blk⟩) nb f'
        p.entries_per_block).total_live
        + countLive (p.block_info.getD j default).block
      = p.total_live + countLive blk := by
  have h := sum_map_set (fun info => countLive info.block) p.block_info j
    ⟨nf, off, blk⟩ hj
  exact h

/-- Effect on the cached free total of replacing record `j`. -/
theorem total_free_set {p : DynamicMemoryPool} {j : Nat}
    (hj : j < p.block_info.length) (nf off : Nat) (blk : MemoryPoolBlock)
    (nb f' : Nat) :
    (DynamicMemoryPool.mk (p.block_info.set j ⟨nf, off, blk⟩) nb f'
        p.entries_per_block).total_free
        + (p.block_info.getD j default).num_free
      = p.total_free + nf := by
  have h := sum_map_set (fun info => info.num_free) p.block_info j
    ⟨nf, off, blk⟩ hj
  exact h

/-- Effect of an allocation step when some owned block has free space: the
allocation succeeds, no block is added, the invariant is preserved, the
total live count grows by one and the cached free total shrinks by one. -/
theorem dyn_alloc_found {p : DynamicMemoryPool} (ok : Bool) (base : Nat)
    (hw : DynWF p) (hfree : p.total_free ≠ 0) :
    (p.alloc_step ok base).1.isSome = true ∧
    DynWF (p.alloc_step ok base).2 ∧
    (p.alloc_step ok base).2.total_live = p.total_live + 1 ∧
    (p.alloc_step ok base).2.total_free + 1 = p.total_free ∧
    (p.alloc_step ok base).2.num_blocks = p.num_blocks ∧
    (p.alloc_step ok base).2.entries_per_block = p.entries_per_block := by
  obtain ⟨hge, hle, hzero, hnz⟩ := find_free_block_spec hw
  have hne : p.find_free_block ≠ p.num_blocks :=
    fun hcontra => hfree ((find_free_block_end_iff hw).mp hcontra)
  have hjlt : p.find_free_block < p.num_blocks := by omega
  have hjlen : p.find_free_block < p.block_info.length := by
    rw [← hw.blocks_len]
    exact hjlt
  have hstep := alloc_step_found p ok base hne
  have hmem : p.block_info.getD p.find_free_block default ∈ p.block_info :=
    getD_mem _ _ _ hjlen
  obtain ⟨hbwf, hbent, hboff, hbcache⟩ := hw.info_ok _ hmem
  have hnfz : (p.block_info.getD p.find_free_block default).num_free ≠ 0 := hnz hjlt
  have hbne : (p.block_info.getD p.find_free_block default).block.free_head_index
      ≠ (p.block_info.getD p.find_free_block default).block.entries_per_block := by
    intro hcontra
    have hfull := blockWF_full hbwf hcontra
    omega
  obtain ⟨hwf2, hcnt⟩ := blockWF_new_object hbwf hbne
  have hsnd : (p.alloc_step ok base).2 =
      { block_info := p.block_info.set p.find_free_block
          ({ num_free := (p.block_info.getD p.find_free_block default).num_free - 1
             offset := (p.block_info.getD p.find_free_block default).offset
             block := (p.block_info.getD p.find_free_block default).block.new_object.2 })
        num_blocks := p.num_blocks
        free_block_index := p.find_free_block
        entries_per_block := p.entries_per_block } := by
    rw [hstep]
    rfl
  have hfst : (p.alloc_step ok base).1
      = (p.block_info.getD p.find_free_block default).block.new_object.1 := by
    rw [hstep]
    rfl
  refine ⟨?_, ?_, ?_, ?_, ?_, ?_⟩
  · rw [hfst, new_object_of_ne _ hbne]
    rfl
  · rw [hsnd]
    refine dynWF_set_record hw hjlen p.find_free_block rfl hwf2
      (by rw [new_object_snd_entries]; exact hbent)
      (by rw [new_object_snd_base]; exact hboff) ?_ hle ?_
    · show (p.block_info.getD p.find_free_block default).num_free - 1
          + countLive (p.block_info.getD p.find_free_block default).block.new_object.2
        = p.entries_per_block
      omega
    · intro m hm
      rw [getD_set_ne _ _ _ (by omega)]
      exact hzero m hm
  · rw [hsnd]
    have h1 := total_live_set hjlen
      ((p.block_info.getD p.find_free_block default).num_free - 1)
      ((p.block_info.getD p.find_free_block default).offset)
      ((p.block_info.getD p.find_free_block default).block.new_object.2)
      p.num_blocks p.find_free_block
    omega
  · rw [hsnd]
    have h2 := total_free_set hjlen
      ((p.block_info.getD p.find_free_block default).num_free - 1)
      ((p.block_info.getD p.find_free_block default).offset)
      ((p.block_info.getD p.find_free_block default).block.new_object.2)
      p.num_blocks p.find_free_block
    omega
  · rw [hsnd]
  · rw [hsnd]

/-- Effect on the live total of appending a record. -/
theorem total_live_append {p : DynamicMemoryPool} (nf off : Nat)
    (blk : MemoryPoolBlock) (nb f' : Nat) :
    (DynamicMemoryPool.mk (p.block_info ++ [⟨nf, off, blk⟩]) nb f'
        p.entries_per_block).total_live
      = p.total_live + countLive blk := by
  show ((p.block_info ++ [(⟨nf, off, blk⟩ : BlockInfo)]).map
        (fun info => countLive info.block)).sum
      = (p.block_info.map (fun info => countLive info.block)).sum + countLive blk
  rw [List.map_append, List.sum_append]
  simp

/-- Effect on the cached free total of appending a record. -/
theorem total_free_append {p : DynamicMemoryPool} (nf off : Nat)
    (blk : MemoryPoolBlock) (nb f' : Nat) :
    (DynamicMemoryPool.mk (p.block_info ++ [⟨nf, off, blk⟩]) nb f'
        p.entries_per_block).total_free
      = p.total_free + nf := by
  show ((p.block_info ++ [(⟨nf, off, blk⟩ : BlockInfo)]).map
        (fun info => info.num_free)).sum
      = (p.block_info.map (fun info => info.num_free)).sum + nf
  rw [List.map_append, List.sum_append]
  simp

theorem fresh_base_iff {p : DynamicMemoryPool} {base : Nat} :
    p.fresh_base base = true ↔ ∀ info ∈ p.block_info,
      base + p.entries_per_block ≤ info.offset ∨
      info.offset + p.entries_per_block ≤ base := by
  unfold DynamicMemoryPool.fresh_base
  rw [List.all_eq_true]
  constructor
  · intro h info hmem
    have := h info hmem
    simpa only [Bool.or_eq_true, decide_eq_true_eq] using this
  · intro h info hmem
    simpa only [Bool.or_eq_true, decide_eq_true_eq] using h info hmem

theorem owns_live_iff {p : DynamicMemoryPool} {ptr : Nat} :
    p.owns_live ptr = true ↔ ∃ info ∈ p.block_info,
      info.offset ≤ ptr ∧ ptr < info.offset + p.entries_per_block ∧
      info.block.indices.getD (ptr - info.offset) 0 = ptr - info.offset := by
  unfold DynamicMemoryPool.owns_live
  rw [List.any_eq_true]
  constructor
  · rintro ⟨info, hmem, hpred⟩
    simp only [Bool.and_eq_true, decide_eq_true_eq, beq_iff_eq] at hpred
    exact ⟨info, hmem, hpred.1.1, hpred.1.2, hpred.2⟩
  · rintro ⟨info, hmem, h1, h2, h3⟩
    refine ⟨info, hmem, ?_⟩
    simp only [Bool.and_eq_true, decide_eq_true_eq, beq_iff_eq]
    exact ⟨⟨h1, h2⟩, h3⟩

/-- Effect of an allocation step when every owned block is exhausted and the
host allocator succeeds: a fresh block is appended, the allocation succeeds
from its slot 0, and the invariant is preserved. -/
theorem dyn_alloc_end_ok {p : DynamicMemoryPool} (base : Nat)
    (hw : DynWF p) (hfree : p.total_free = 0)
    (hB : 0 < p.entries_per_block)
    (hfresh : p.fresh_base base = true) :
    (p.alloc_step true base).1.isSome = true ∧
    DynWF (p.alloc_step true base).2 ∧
    (p.alloc_step true base).2.total_live = p.total_live + 1 ∧
    (p.alloc_step true base).2.total_free + 1 = p.entries_per_block ∧
    (p.alloc_step true base).2.num_blocks = p.num_blocks + 1 ∧
    (p.alloc_step true base).2.entries_per_block = p.entries_per_block := by
  have hend : p.find_free_block = p.num_blocks := (find_free_block_end_iff hw).mpr hfree
  have hleneq : p.block_info.length = p.num_blocks := hw.blocks_len.symm
  have hstep : p.alloc_step true base
      = (DynamicMemoryPool.mk
          (p.block_info ++
            [⟨p.entries_per_block,
              (MemoryPoolBlock.create p.entries_per_block base).base,
              MemoryPoolBlock.create p.entries_per_block base⟩])
          (p.num_blocks + 1) p.find_free_block p.entries_per_block).alloc_from
          p.find_free_block := by
    unfold DynamicMemoryPool.alloc_step
    rw [new_object_end p true true base hend]
    rfl
  have hgetD : (p.block_info ++
        [(⟨p.entries_per_block,
          (MemoryPoolBlock.create p.entries_per_block base).base,
          MemoryPoolBlock.create p.entries_per_block base⟩ : BlockInfo)]).getD
        p.find_free_block default
      = ⟨p.entries_per_block,
          (MemoryPoolBlock.create p.entries_per_block base).base,
          MemoryPoolBlock.create p.entries_per_block base⟩ := by
    rw [List.getD_append_right _ _ _ _ (by omega)]
    rw [show p.find_free_block - p.block_info.length = 0 by omega]
    rfl
  have hbne : (MemoryPoolBlock.create p.entries_per_block base).free_head_index
      ≠ (MemoryPoolBlock.create p.entries_per_block base).entries_per_block := by
    rw [create_free_head, create_entries_per_block]
    omega
  obtain ⟨hwf2, hcnt⟩ := blockWF_new_object (blockWF_create _ _) hbne
  have hcnt0 := countLive_create p.entries_per_block base
  have hsnd : (p.alloc_step true base).2
      = DynamicMemoryPool.mk
          (p.block_info ++
            [⟨p.entries_per_block - 1,
              (MemoryPoolBlock.create p.entries_per_block base).base,
              (MemoryPoolBlock.create p.entries_per_block base).new_object.2⟩])
          (p.num_blocks + 1) p.find_free_block p.entries_per_block := by
    rw [hstep, alloc_from_snd]
    show DynamicMemoryPool.mk _ _ _ _ = _
    rw [hgetD]
    rw [show p.find_free_block = p.block_info.length by omega, set_append_length]
  have hfst : (p.alloc_step true base).1
      = (MemoryPoolBlock.create p.entries_per_block base).new_object.1 := by
    rw [hstep, alloc_from_fst]
    rw [hgetD]
  refine ⟨?_, ?_, ?_, ?_, ?_, ?_⟩
  · rw [hfst, new_object_of_ne _ hbne]
    rfl
  · rw [hsnd]
    refine dynWF_append_record hw hwf2 (by rw [new_object_snd_entries]; rfl)
      (by rw [new_object_snd_base]) ?_ ?_ p.find_free_block (by omega) ?_
    · show p.entries_per_block - 1
          + countLive (MemoryPoolBlock.create p.entries_per_block base).new_object.2
        = p.entries_per_block
      omega
    · intro info hmem
      have hfr := fresh_base_iff.mp hfresh info hmem
      show (MemoryPoolBlock.create p.entries_per_block base).base + p.entries_per_block
          ≤ info.offset ∨
        info.offset + p.entries_per_block
          ≤ (MemoryPoolBlock.create p.entries_per_block base).base
      rw [create_base_eq]
      exact hfr
    · intro m hm
      rw [List.getD_append _ _ _ _ (by omega)]
      exact (total_free_eq_zero_iff.mp hfree) _ (getD_mem _ _ _ (by omega))
  · rw [hsnd]
    have h1 := @total_live_append p (p.entries_per_block - 1)
      (MemoryPoolBlock.create p.entries_per_block base).base
      (MemoryPoolBlock.create p.entries_per_block base).new_object.2
      (p.num_blocks + 1) p.find_free_block
    omega
  · rw [hsnd]
    have h2 := @total_free_append p (p.entries_per_block - 1)
      (MemoryPoolBlock.create p.entries_per_block base).base
      (MemoryPoolBlock.create p.entries_per_block base).new_object.2
      (p.num_blocks + 1) p.find_free_block
    omega
  · rw [hsnd]
  · rw [hsnd]

/-- Effect of an allocation step when every owned block is exhausted and the
host allocator fails: null is returned and the pool keeps its state apart
from the advanced hint (still invariant-preserving, with no retry). -/
theorem dyn_alloc_end_fail {p : DynamicMemoryPool} (base : Nat)
    (hw : DynWF p) (hfree : p.total_free = 0) :
    p.alloc_step false base = (none, { p with free_block_index := p.num_blocks }) ∧
    DynWF { p with free_block_index := p.num_blocks } := by
  have hend : p.find_free_block = p.num_blocks := (find_free_block_end_iff hw).mpr hfree
  constructor
  · unfold DynamicMemoryPool.alloc_step
    rw [new_object_end p false true base hend]
    rw [show ({ p with free_block_index := p.find_free_block } :
        DynamicMemoryPool).add_block false true base
      = CallResult.ok (none, { p with free_block_index := p.find_free_block })
      from add_block_create_fail _ _ _]
    rw [hend]
  · refine ⟨hw.blocks_len, Nat.le_refl _, ?_, hw.info_ok, hw.disj⟩
    intro m hm
    have hmlen : m < p.block_info.length := by
      rw [← hw.blocks_len]
      exact hm
    exact (total_free_eq_zero_iff.mp hfree) _ (getD_mem _ _ _ hmlen)

theorem delete_object_found (p : DynamicMemoryPool) (ptr m : Nat)
    (hfind : findOwnerFrom p.entries_per_block ptr p.block_info 0 = some m) :
    p.delete_object ptr = DynamicMemoryPool.mk
      (p.block_info.set m
        ⟨(p.block_info.getD m default).num_free + 1,
         (p.block_info.getD m default).offset,
         (p.block_info.getD m default).block.delete_object (some ptr)⟩)
      p.num_blocks
      (if m < p.free_block_index then m else p.free_block_index)
      p.entries_per_block := by
  unfold DynamicMemoryPool.delete_object
  rw [hfind]

theorem delete_object_notfound (p : DynamicMemoryPool) (ptr : Nat)
    (hfind : findOwnerFrom p.entries_per_block ptr p.block_info 0 = none) :
    p.delete_object ptr = p := by
  unfold DynamicMemoryPool.delete_object
  rw [hfind]

/-- Effect of a release that satisfies the ownership contract: the owning
record is located, the slot is freed, the invariant is preserved, the live
total shrinks by one and the cached free total grows by one. -/
theorem dyn_delete_owned {p : DynamicMemoryPool} {ptr : Nat}
    (hw : DynWF p) (howns : p.owns_live ptr = true) :
    DynWF (p.delete_object ptr) ∧
    (p.delete_object ptr).total_live + 1 = p.total_live ∧
    (p.delete_object ptr).total_free = p.total_free + 1 ∧
    (p.delete_object ptr).num_blocks = p.num_blocks ∧
    (p.delete_object ptr).entries_per_block = p.entries_per_block := by
  obtain ⟨winfo, hwmem, hc1, hc2, hc3⟩ := owns_live_iff.mp howns
  obtain ⟨wi, hwi, hwget⟩ := List.getElem_of_mem hwmem
  cases hfind : findOwnerFrom p.entries_per_block ptr p.block_info 0 with
  | none =>
    exact absurd ⟨hc1, hc2⟩ (findOwnerFrom_none_spec _ _ _ _ hfind winfo hwmem)
  | some m =>
    obtain ⟨-, hmlen, hmc⟩ :=
      findOwnerFrom_some_spec p.entries_per_block ptr p.block_info 0 m hfind
    rw [Nat.sub_zero] at hmlen hmc
    have hwiD : p.block_info.getD wi default = winfo := by
      rw [List.getD_eq_getElem _ _ hwi, hwget]
    have hmwi : m = wi :=
      owner_unique hw hmlen hwi hmc (by rw [hwiD]; exact ⟨hc1, hc2⟩)
    subst hmwi
    have hwiD' : p.block_info.getD m default = winfo := hwiD
    obtain ⟨hbwf, hbent, hboff, hbcache⟩ := hw.info_ok winfo hwmem
    have hilt : ptr - winfo.offset < winfo.block.entries_per_block := by
      rw [hbent]
      omega
    obtain ⟨hwfd, hcntd⟩ := @blockWF_delete_gen winfo.block
      (winfo.block.delete_object (some ptr)) (ptr - winfo.offset) hbwf hilt hc3
      (by rw [delete_object_some]; show ptr - winfo.block.base = ptr - winfo.offset
          rw [← hboff])
      (by rw [delete_object_some]; show winfo.block.indices.set (ptr - winfo.block.base)
            winfo.block.free_head_index
          = winfo.block.indices.set (ptr - winfo.offset) winfo.block.free_head_index
          rw [← hboff])
      (by rw [delete_object_entries])
    have hdel := delete_object_found p ptr m hfind
    rw [hwiD'] at hdel
    have hf'le : (if m < p.free_block_index then m else p.free_block_index)
        ≤ p.num_blocks := by
      by_cases hcase : m < p.free_block_index
      · rw [if_pos hcase]
        have := hw.hint_le
        omega
      · rw [if_neg hcase]
        exact hw.hint_le
    refine ⟨?_, ?_, ?_, ?_, ?_⟩
    · rw [hdel]
      refine dynWF_set_record hw hmlen _ (by rw [hwiD'])
        hwfd (by rw [delete_object_entries]; exact hbent)
        (by rw [delete_object_base]; exact hboff) ?_ hf'le ?_
      · show winfo.num_free + 1 + countLive (winfo.block.delete_object (some ptr))
            = p.entries_per_block
        omega
      · intro jj hjj
        by_cases hcase : m < p.free_block_index
        · rw [if_pos hcase] at hjj
          rw [getD_set_ne _ _ _ (by omega)]
          exact hw.hint_zero jj (by omega)
        · rw [if_neg hcase] at hjj
          rw [getD_set_ne _ _ _ (by omega)]
          exact hw.hint_zero jj hjj
    · rw [hdel]
      have h1 := total_live_set hmlen (winfo.num_free + 1) winfo.offset
        (winfo.block.delete_object (some ptr)) p.num_blocks
        (if m < p.free_block_index then m else p.free_block_index)
      rw [hwiD'] at h1
      omega
    · rw [hdel]
      have h2 := total_free_set hmlen (winfo.num_free + 1) winfo.offset
        (winfo.block.delete_object (some ptr)) p.num_blocks
        (if m < p.free_block_index then m else p.free_block_index)
      rw [hwiD'] at h2
      omega
    · rw [hdel]
    · rw [hdel]

/-! ### Statistics and enumeration under the invariant -/

theorem get_stats_block_count (p : DynamicMemoryPool) :
    p.get_stats.block_count = p.num_blocks := rfl

theorem get_stats_allocation_count {p : DynamicMemoryPool} (hw : DynWF p) :
    p.get_stats.allocation_count = p.total_live := by
  show (p.block_info.map (fun info =>
      if info.num_free < p.entries_per_block then info.block.count_allocations
      else 0)).sum
    = (p.block_info.map (fun info => countLive info.block)).sum
  refine congrArg List.sum (List.map_congr_left ?_)
  intro info hmem
  obtain ⟨-, -, -, hcache⟩ := hw.info_ok info hmem
  by_cases hlt : info.num_free < p.entries_per_block
  · rw [if_pos hlt, count_allocations_eq_countLive]
  · rw [if_neg hlt]
    have hzero : countLive info.block = 0 := by omega
    rw [hzero]

/-- The pruning in the dynamic pool's `for_each` is sound: skipped records
cache `num_free_ = entries_per_block`, whose blocks hold no live object. -/
theorem dyn_for_each_eq {p : DynamicMemoryPool} (hw : DynWF p) :
    p.for_each_list
      = (p.block_info.map (fun info => info.block.for_each_list)).flatten := by
  show ((p.block_info.map (fun info =>
      if info.num_free < p.entries_per_block then info.block.for_each_list
      else [])).flatten) = _
  refine congrArg List.flatten (List.map_congr_left ?_)
  intro info hmem
  obtain ⟨-, -, -, hcache⟩ := hw.info_ok info hmem
  by_cases hlt : info.num_free < p.entries_per_block
  · rw [if_pos hlt]
  · rw [if_neg hlt]
    exact (for_each_list_eq_nil_of_zero _ (by omega)).symm

theorem dyn_for_each_nodup {p : DynamicMemoryPool} (hw : DynWF p) :
    p.for_each_list.Nodup := by
  rw [dyn_for_each_eq hw, List.nodup_flatten]
  constructor
  · intro l hl
    obtain ⟨info, hmem, rfl⟩ := List.mem_map.mp hl
    exact for_each_list_nodup _
  · rw [List.pairwise_map]
    have hd := hw.disj
    rw [List.pairwise_map] at hd
    refine hd.imp_of_mem ?_
    intro a b ha hb hr x hxa hxb
    obtain ⟨-, haent, haoff, -⟩ := hw.info_ok a ha
    obtain ⟨-, hbent, hboff, -⟩ := hw.info_ok b hb
    obtain ⟨hxa1, hxa2⟩ := mem_for_each_list_bounds hxa
    obtain ⟨hxb1, hxb2⟩ := mem_for_each_list_bounds hxb
    rw [← haoff] at hxa1 hxa2
    rw [← hboff] at hxb1 hxb2
    rw [haent] at hxa2
    rw [hbent] at hxb2
    omega

theorem dyn_for_each_mem {p : DynamicMemoryPool} (hw : DynWF p) (a : Nat) :
    a ∈ p.for_each_list ↔ p.owns_live a = true := by
  rw [dyn_for_each_eq hw, List.mem_flatten, owns_live_iff]
  constructor
  · rintro ⟨l, hl, hal⟩
    obtain ⟨info, hmem, rfl⟩ := List.mem_map.mp hl
    obtain ⟨i, hi, hlive, rfl⟩ := mem_for_each_list.mp hal
    obtain ⟨-, hent, hoff, -⟩ := hw.info_ok info hmem
    rw [hent] at hi
    refine ⟨info, hmem, by omega, by omega, ?_⟩
    rw [show info.block.base + i - info.offset = i by omega]
    exact hlive
  · rintro ⟨info, hmem, h1, h2, h3⟩
    obtain ⟨-, hent, hoff, -⟩ := hw.info_ok info hmem
    refine ⟨info.block.for_each_list, List.mem_map.mpr ⟨info, hmem, rfl⟩, ?_⟩
    refine mem_for_each_list.mpr ⟨a - info.offset, ?_, h3, by omega⟩
    rw [hent]
    omega

theorem dyn_for_each_length {p : DynamicMemoryPool} (hw : DynWF p) :
    p.for_each_list.length = p.get_stats.allocation_count := by
  rw [dyn_for_each_eq hw, List.length_flatten, get_stats_allocation_count hw,
    List.map_map]
  refine congrArg List.sum (List.map_congr_left ?_)
  intro info hmem
  exact for_each_list_length _

/-! ### Runs of the dynamic pool -/

theorem dyn_run_nil (p : DynamicMemoryPool) : p.run [] = (p, 0, 0) := rfl

theorem dyn_run_alloc (p : DynamicMemoryPool) (ok : Bool) (base : Nat)
    (t : List DynOp) :
    p.run (DynOp.alloc ok base :: t)
      = (((p.alloc_step ok base).2.run t).1,
        ((p.alloc_step ok base).2.run t).2.1
          + (if (p.alloc_step ok base).1.isSome then 1 else 0),
        ((p.alloc_step ok base).2.run t).2.2) := rfl

theorem dyn_run_dealloc (p : DynamicMemoryPool) (ptr : Nat) (t : List DynOp) :
    p.run (DynOp.dealloc ptr :: t)
      = (((p.delete_object ptr).run t).1,
        ((p.delete_object ptr).run t).2.1,
        ((p.delete_object ptr).run t).2.2 + 1) := rfl

theorem dyn_valid_alloc (p : DynamicMemoryPool) (ok : Bool) (base : Nat)
    (t : List DynOp) :
    p.valid_trace (DynOp.alloc ok base :: t)
      = (p.fresh_base base && (p.alloc_step ok base).2.valid_trace t) := rfl

theorem dyn_valid_dealloc (p : DynamicMemoryPool) (ptr : Nat) (t : List DynOp) :
    p.valid_trace (DynOp.dealloc ptr :: t)
      = (p.owns_live ptr && (p.delete_object ptr).valid_trace t) := rfl

/-- Master lemma for runs of the dynamic pool over valid traces: the
invariant is preserved, the per-block capacity is stable, and the final
live total balances successful allocations against releases. -/
theorem dyn_run_spec (tr : List DynOp) :
    ∀ p : DynamicMemoryPool, DynWF p → 0 < p.entries_per_block →
      p.valid_trace tr = true →
      DynWF (p.run tr).1 ∧
      (p.run tr).1.total_live + (p.run tr).2.2 = p.total_live + (p.run tr).2.1 ∧
      (p.run tr).1.entries_per_block = p.entries_per_block := by
  induction tr with
  | nil =>
    intro p hw hB hv
    exact ⟨hw, rfl, rfl⟩
  | cons op t ih =>
    intro p hw hB hv
    cases op with
    | alloc ok base =>
      rw [dyn_valid_alloc, Bool.and_eq_true] at hv
      obtain ⟨hfresh, hvrest⟩ := hv
      rw [dyn_run_alloc]
      by_cases hfz : p.total_free = 0
      · cases ok with
        | false =>
          obtain ⟨hstep, hw'⟩ := dyn_alloc_end_fail base hw hfz
          simp only [hstep] at hvrest ⊢
          obtain ⟨ih1, ih2, ih3⟩ := ih _ hw' hB hvrest
          refine ⟨ih1, ?_, ih3⟩
          have hsame : ({ p with free_block_index := p.num_blocks } :
              DynamicMemoryPool).total_live = p.total_live := rfl
          simp only [Option.isSome_none]
          rw [if_neg Bool.false_ne_true]
          omega
        | true =>
          obtain ⟨hsome, hw', hlive, hfree', hnb, hent⟩ :=
            dyn_alloc_end_ok base hw hfz hB hfresh
          obtain ⟨ih1, ih2, ih3⟩ := ih _ hw' (by rw [hent]; exact hB) hvrest
          refine ⟨ih1, ?_, by rw [ih3, hent]⟩
          have hif : (if (p.alloc_step true base).1.isSome = true then (1 : Nat)
              else 0) = 1 := by
            rw [hsome]
            rfl
          show ((p.alloc_step true base).2.run t).1.total_live
              + ((p.alloc_step true base).2.run t).2.2
            = p.total_live + (((p.alloc_step true base).2.run t).2.1
              + (if (p.alloc_step true base).1.isSome then 1 else 0))
          rw [hif]
          omega
      · obtain ⟨hsome, hw', hlive, hfree', hnb, hent⟩ :=
          dyn_alloc_found ok base hw hfz
        obtain ⟨ih1, ih2, ih3⟩ := ih _ hw' (by rw [hent]; exact hB) hvrest
        refine ⟨ih1, ?_, by rw [ih3, hent]⟩
        have hif : (if (p.alloc_step ok base).1.isSome = true then (1 : Nat)
            else 0) = 1 := by
          rw [hsome]
          rfl
        show ((p.alloc_step ok base).2.run t).1.total_live
            + ((p.alloc_step ok base).2.run t).2.2
          = p.total_live + (((p.alloc_step ok base).2.run t).2.1
            + (if (p.alloc_step ok base).1.isSome then 1 else 0))
        rw [hif]
        omega
    | dealloc ptr =>
      rw [dyn_valid_dealloc, Bool.and_eq_true] at hv
      obtain ⟨howns, hvrest⟩ := hv
      rw [dyn_run_dealloc]
      obtain ⟨hw', hlive, hfree', hnb, hent⟩ := dyn_delete_owned hw howns
      obtain ⟨ih1, ih2, ih3⟩ := ih _ hw' (by rw [hent]; exact hB) hvrest
      refine ⟨ih1, ?_, by rw [ih3, hent]⟩
      show ((p.delete_object ptr).run t).1.total_live
          + (((p.delete_object ptr).run t).2.2 + 1)
        = p.total_live + ((p.delete_object ptr).run t).2.1
      omega

/-! ### The dynamic pool constructor -/

theorem dyn_create_eq (B base : Nat) :
    DynamicMemoryPool.create B base
      = DynamicMemoryPool.mk [⟨B, base, MemoryPoolBlock.create B base⟩] 1 0 B := rfl

theorem dynWF_create (B base : Nat) : DynWF (DynamicMemoryPool.create B base) := by
  rw [dyn_create_eq]
  refine ⟨rfl, Nat.zero_le 1, ?_, ?_, ?_⟩
  · intro j hj
    exact absurd hj (Nat.not_lt_zero j)
  · intro info hmem
    have heq : info = ⟨B, base, MemoryPoolBlock.create B base⟩ := by simpa using hmem
    subst heq
    refine ⟨blockWF_create B base, create_entries_per_block B base,
      (create_base_eq B base).symm, ?_⟩
    show B + countLive (MemoryPoolBlock.create B base) = B
    rw [countLive_create]
    omega
  · simp

theorem dyn_create_total_free (B base : Nat) :
    (DynamicMemoryPool.create B base).total_free = B := by
  rw [dyn_create_eq]
  show (List.map (fun info => info.num_free)
    [(⟨B, base, MemoryPoolBlock.create B base⟩ : BlockInfo)]).sum = B
  simp

theorem dyn_create_total_live (B base : Nat) :
    (DynamicMemoryPool.create B base).total_live = 0 := by
  rw [dyn_create_eq]
  show (List.map (fun info => countLive info.block)
    [(⟨B, base, MemoryPoolBlock.create B base⟩ : BlockInfo)]).sum = 0
  simp [countLive_create]

theorem dyn_create_entries (B base : Nat) :
    (DynamicMemoryPool.create B base).entries_per_block = B := rfl

theorem dyn_create_num_blocks (B base : Nat) :
    (DynamicMemoryPool.create B base).num_blocks = 1 := rfl

/-! ### Runs of the fixed pool -/

/-- One client operation on a fixed pool. -/
inductive FixedOp where
  | alloc : FixedOp
  | dealloc (ptr : Nat) : FixedOp
deriving DecidableEq, Repr

/-- Run of a trace of client operations on a fixed pool; returns the final
pool, the number of successful allocations, and the number of releases. -/
def FixedMemoryPool.run (p : FixedMemoryPool) :
    List FixedOp → FixedMemoryPool × Nat × Nat
  | [] => (p, 0, 0)
  | FixedOp.alloc :: t =>
    let r := p.new_object
    let rest := FixedMemoryPool.run r.2 t
    (rest.1, rest.2.1 + (if r.1.isSome then 1 else 0), rest.2.2)
  | FixedOp.dealloc ptr :: t =>
    let rest := FixedMemoryPool.run (p.delete_object (some ptr)) t
    (rest.1, rest.2.1, rest.2.2 + 1)

/-- Ownership check for a pointer against the fixed pool's single block. -/
def FixedMemoryPool.owns_live (p : FixedMemoryPool) (ptr : Nat) : Bool :=
  decide (p.block.base ≤ ptr) &&
  decide (ptr < p.block.base + p.block.entries_per_block) &&
  (p.block.indices.getD (ptr - p.block.base) 0 == ptr - p.block.base)

/-- Validity of a fixed-pool trace: every release targets a currently live
object (the ownership contract). -/
def FixedMemoryPool.valid_trace (p : FixedMemoryPool) : List FixedOp → Bool
  | [] => true
  | FixedOp.alloc :: t => FixedMemoryPool.valid_trace p.new_object.2 t
  | FixedOp.dealloc ptr :: t =>
    p.owns_live ptr && FixedMemoryPool.valid_trace (p.delete_object (some ptr)) t

theorem fixed_run_alloc (p : FixedMemoryPool) (t : List FixedOp) :
    FixedMemoryPool.run p (FixedOp.alloc :: t)
      = ((FixedMemoryPool.run p.new_object.2 t).1,
        (FixedMemoryPool.run p.new_object.2 t).2.1
          + (if p.new_object.1.isSome then 1 else 0),
        (FixedMemoryPool.run p.new_object.2 t).2.2) := rfl

theorem fixed_run_dealloc (p : FixedMemoryPool) (ptr : Nat) (t : List FixedOp) :
    FixedMemoryPool.run p (FixedOp.dealloc ptr :: t)
      = ((FixedMemoryPool.run (p.delete_object (some ptr)) t).1,
        (FixedMemoryPool.run (p.delete_object (some ptr)) t).2.1,
        (FixedMemoryPool.run (p.delete_object (some ptr)) t).2.2 + 1) := rfl

theorem fixed_valid_dealloc (p : FixedMemoryPool) (ptr : Nat) (t : List FixedOp) :
    FixedMemoryPool.valid_trace p (FixedOp.dealloc ptr :: t)
      = (p.owns_live ptr
          && FixedMemoryPool.valid_trace (p.delete_object (some ptr)) t) := rfl

/-- Master lemma for runs of the fixed pool over valid traces. -/
theorem fixed_run_spec (tr : List FixedOp) :
    ∀ p : FixedMemoryPool, BlockWF p.block → p.valid_trace tr = true →
      BlockWF (FixedMemoryPool.run p tr).1.block ∧
      countLive (FixedMemoryPool.run p tr).1.block
          + (FixedMemoryPool.run p tr).2.2
        = countLive p.block + (FixedMemoryPool.run p tr).2.1 := by
  induction tr with
  | nil =>
    intro p hw hv
    exact ⟨hw, rfl⟩
  | cons op t ih =>
    intro p hw hv
    cases op with
    | alloc =>
      rw [fixed_run_alloc]
      by_cases hfull : p.block.free_head_index = p.block.entries_per_block
      · have hblk : p.new_object = (none, p) := by
          unfold FixedMemoryPool.new_object
          rw [new_object_of_eq _ hfull]
        have hv' : p.valid_trace (FixedOp.alloc :: t)
            = FixedMemoryPool.valid_trace p.new_object.2 t := rfl
        rw [hv', hblk] at hv
        simp only [hblk]
        obtain ⟨ih1, ih2⟩ := ih p hw hv
        refine ⟨ih1, ?_⟩
        simp only [Option.isSome_none]
        rw [if_neg Bool.false_ne_true]
        omega
      · obtain ⟨hw2, hcnt⟩ := blockWF_new_object hw hfull
        have hbeq : p.new_object.2.block = p.block.new_object.2 := rfl
        have hsome : p.new_object.1.isSome = true := by
          show p.block.new_object.1.isSome = true
          rw [new_object_of_ne _ hfull]
          rfl
        have hv' : FixedMemoryPool.valid_trace p.new_object.2 t = true := hv
        obtain ⟨ih1, ih2⟩ := ih p.new_object.2 (by rw [hbeq]; exact hw2) hv'
        refine ⟨ih1, ?_⟩
        rw [hbeq] at ih2
        have hif : (if p.new_object.1.isSome = true then (1 : Nat) else 0) = 1 := by
          rw [hsome]
          rfl
        show countLive (FixedMemoryPool.run p.new_object.2 t).1.block
            + (FixedMemoryPool.run p.new_object.2 t).2.2
          = countLive p.block + ((FixedMemoryPool.run p.new_object.2 t).2.1
            + (if p.new_object.1.isSome then 1 else 0))
        rw [hif]
        omega
    | dealloc ptr =>
      have hv' := hv
      rw [fixed_valid_dealloc, Bool.and_eq_true] at hv'
      obtain ⟨howns, hvrest⟩ := hv'
      unfold FixedMemoryPool.owns_live at howns
      simp only [Bool.and_eq_true, decide_eq_true_eq, beq_iff_eq] at howns
      obtain ⟨⟨hge, hlt⟩, hlive⟩ := howns
      have hieq : p.block.base + (ptr - p.block.base) = ptr := by omega
      have hdd := @blockWF_delete_object p.block (ptr - p.block.base) hw (by omega) hlive
      rw [hieq] at hdd
      rw [fixed_run_dealloc]
      have hbeq : (p.delete_object (some ptr)).block
          = p.block.delete_object (some ptr) := rfl
      obtain ⟨ih1, ih2⟩ := ih (p.delete_object (some ptr))
        (by rw [hbeq]; exact hdd.1) hvrest
      refine ⟨ih1, ?_⟩
      rw [hbeq] at ih2
      have hd2 := hdd.2
      show countLive (FixedMemoryPool.run (p.delete_object (some ptr)) t).1.block
          + ((FixedMemoryPool.run (p.delete_object (some ptr)) t).2.2 + 1)
        = countLive p.block
          + (FixedMemoryPool.run (p.delete_object (some ptr)) t).2.1
      omega

theorem fixed_get_stats_count (p : FixedMemoryPool) :
    p.get_stats.allocation_count = countLive p.block :=
  for_each_list_length _

/-! ### Auxiliary lemmas for the remaining claims -/

/-- Light version of the scan-termination fact, with only the decidable
bookkeeping hypotheses it needs. -/
theorem find_free_block_end_of_total_free_zero {p : DynamicMemoryPool}
    (hbl : p.num_blocks = p.block_info.length)
    (hle : p.free_block_index ≤ p.num_blocks)
    (hfz : p.total_free = 0) : p.find_free_block = p.num_blocks := by
  have hdef : p.find_free_block
      = firstFreeFrom (p.block_info.drop p.free_block_index) p.free_block_index := rfl
  obtain ⟨h1, h2, h3, h4⟩ :=
    firstFreeFrom_spec (p.block_info.drop p.free_block_index) p.free_block_index
  have hlen : (p.block_info.drop p.free_block_index).length
      = p.block_info.length - p.free_block_index := List.length_drop _ _
  have hhl : p.free_block_index ≤ p.block_info.length := by omega
  have hub : p.find_free_block ≤ p.num_blocks := by
    rw [hdef]
    omega
  by_contra hne
  have hlt : p.find_free_block < p.num_blocks := by omega
  have hlt' : firstFreeFrom (p.block_info.drop p.free_block_index) p.free_block_index
      < p.free_block_index + (p.block_info.drop p.free_block_index).length := by
    rw [← hdef]
    omega
  have hnz := h4 hlt'
  have hgd : (p.block_info.drop p.free_block_index).getD
        (p.find_free_block - p.free_block_index) default
      = p.block_info.getD p.find_free_block default := by
    rw [List.getD_eq_getElem?_getD, List.getD_eq_getElem?_getD, List.getElem?_drop]
    rw [show p.free_block_index + (p.find_free_block - p.free_block_index)
        = p.find_free_block by omega]
  rw [← hdef] at hnz
  rw [hgd] at hnz
  have hjlen : p.find_free_block < p.block_info.length := by omega
  exact hnz ((total_free_eq_zero_iff.mp hfz) _ (getD_mem _ _ _ hjlen))

theorem findOwnerFrom_eq_none (epb ptr : Nat) :
    ∀ (l : List BlockInfo) (k : Nat),
      (∀ info ∈ l, ¬(info.offset ≤ ptr ∧ ptr < info.offset + epb)) →
      findOwnerFrom epb ptr l k = none := by
  intro l
  induction l with
  | nil => intro k _; rfl
  | cons x xs ih =>
    intro k h
    have hx : ¬(x.offset ≤ ptr ∧ ptr < x.offset + epb) :=
      h x (List.mem_cons_self _ _)
    show (if x.offset ≤ ptr ∧ ptr < x.offset + epb then some k
        else findOwnerFrom epb ptr xs (k + 1)) = none
    rw [if_neg hx]
    exact ih (k + 1) (fun info hmem => h info (List.mem_cons_of_mem _ hmem))

/-- Splitting a run over a concatenated trace. -/
theorem dyn_run_append (t1 t2 : List DynOp) :
    ∀ p : DynamicMemoryPool,
      (p.run (t1 ++ t2)).1 = ((p.run t1).1.run t2).1 ∧
      (p.run (t1 ++ t2)).2.1 = (p.run t1).2.1 + ((p.run t1).1.run t2).2.1 ∧
      (p.run (t1 ++ t2)).2.2 = (p.run t1).2.2 + ((p.run t1).1.run t2).2.2 := by
  induction t1 with
  | nil =>
    intro p
    refine ⟨rfl, ?_, ?_⟩
    · show (p.run t2).2.1 = 0 + (p.run t2).2.1
      omega
    · show (p.run t2).2.2 = 0 + (p.run t2).2.2
      omega
  | cons op t1 ih =>
    intro p
    cases op with
    | alloc ok base =>
      obtain ⟨e1, e2, e3⟩ := ih (p.alloc_step ok base).2
      refine ⟨?_, ?_, ?_⟩
      · show ((p.alloc_step ok base).2.run (t1 ++ t2)).1
            = (((p.alloc_step ok base).2.run t1).1.run t2).1
        exact e1
      · show ((p.alloc_step ok base).2.run (t1 ++ t2)).2.1
              + (if (p.alloc_step ok base).1.isSome then 1 else 0)
            = (((p.alloc_step ok base).2.run t1).2.1
              + (if (p.alloc_step ok base).1.isSome then 1 else 0))
              + (((p.alloc_step ok base).2.run t1).1.run t2).2.1
        omega
      · show ((p.alloc_step ok base).2.run (t1 ++ t2)).2.2
            = ((p.alloc_step ok base).2.run t1).2.2
              + (((p.alloc_step ok base).2.run t1).1.run t2).2.2
        exact e3
    | dealloc ptr =>
      obtain ⟨e1, e2, e3⟩ := ih (p.delete_object ptr)
      refine ⟨?_, ?_, ?_⟩
      · show ((p.delete_object ptr).run (t1 ++ t2)).1
            = (((p.delete_object ptr).run t1).1.run t2).1
        exact e1
      · show ((p.delete_object ptr).run (t1 ++ t2)).2.1
            = ((p.delete_object ptr).run t1).2.1
              + (((p.delete_object ptr).run t1).1.run t2).2.1
        exact e2
      · show ((p.delete_object ptr).run (t1 ++ t2)).2.2 + 1
            = (((p.delete_object ptr).run t1).2.2 + 1)
              + (((p.delete_object ptr).run t1).1.run t2).2.2
        omega

/-- Splitting validity over a concatenated trace. -/
theorem dyn_valid_append (t1 t2 : List DynOp) :
    ∀ p : DynamicMemoryPool,
      p.valid_trace (t1 ++ t2)
        = (p.valid_trace t1 && (p.run t1).1.valid_trace t2) := by
  induction t1 with
  | nil =>
    intro p
    show p.valid_trace t2 = (true && p.valid_trace t2)
    rw [Bool.true_and]
  | cons op t1 ih =>
    intro p
    cases op with
    | alloc ok base =>
      show (p.fresh_base base && (p.alloc_step ok base).2.valid_trace (t1 ++ t2))
          = ((p.fresh_base base && (p.alloc_step ok base).2.valid_trace t1)
            && ((p.alloc_step ok base).2.run t1).1.valid_trace t2)
      rw [ih (p.alloc_step ok base).2, Bool.and_assoc]
    | dealloc ptr =>
      show (p.owns_live ptr && (p.delete_object ptr).valid_trace (t1 ++ t2))
          = ((p.owns_live ptr && (p.delete_object ptr).valid_trace t1)
            && ((p.delete_object ptr).run t1).1.valid_trace t2)
      rw [ih (p.delete_object ptr), Bool.and_assoc]

/-- Running a block of allocations that fits in the cached free space: no
block is added and every allocation succeeds. -/
theorem dyn_run_allocs_capacity :
    ∀ (bases : List Nat) (p : DynamicMemoryPool), DynWF p →
      p.valid_trace (bases.map (fun f => DynOp.alloc true f)) = true →
      bases.length ≤ p.total_free →
      DynWF (p.run (bases.map (fun f => DynOp.alloc true f))).1 ∧
      (p.run (bases.map (fun f => DynOp.alloc true f))).1.num_blocks
        = p.num_blocks ∧
      (p.run (bases.map (fun f => DynOp.alloc true f))).1.total_free
          + bases.length
        = p.total_free ∧
      (p.run (bases.map (fun f => DynOp.alloc true f))).1.entries_per_block
        = p.entries_per_block ∧
      (p.run (bases.map (fun f => DynOp.alloc true f))).2.1 = bases.length := by
  intro bases
  induction bases with
  | nil =>
    intro p hw hv hle
    exact ⟨hw, rfl, rfl, rfl, rfl⟩
  | cons f fs ih =>
    intro p hw hv hle
    rw [List.length_cons] at hle
    have hfz : p.total_free ≠ 0 := by omega
    rw [List.map_cons, dyn_valid_alloc, Bool.and_eq_true] at hv
    obtain ⟨hfresh, hvrest⟩ := hv
    obtain ⟨hsome, hw', hlive, hfree', hnb, hent⟩ := dyn_alloc_found true f hw hfz
    obtain ⟨ih1, ih2, ih3, ih4, ih5⟩ := ih _ hw' hvrest (by omega)
    rw [List.map_cons, dyn_run_alloc]
    have hif : (if (p.alloc_step true f).1.isSome = true then (1 : Nat) else 0)
        = 1 := by
      rw [hsome]
      rfl
    refine ⟨ih1, ?_, ?_, ?_, ?_⟩
    · show ((p.alloc_step true f).2.run (fs.map (fun f => DynOp.alloc true f))).1.num_blocks
          = p.num_blocks
      rw [ih2, hnb]
    · show ((p.alloc_step true f).2.run (fs.map (fun f => DynOp.alloc true f))).1.total_free
            + (f :: fs).length
        = p.total_free
      rw [List.length_cons]
      omega
    · show ((p.alloc_step true f).2.run (fs.map (fun f => DynOp.alloc true f))).1.entries_per_block
          = p.entries_per_block
      rw [ih4, hent]
    · show ((p.alloc_step true f).2.run (fs.map (fun f => DynOp.alloc true f))).2.1
            + (if (p.alloc_step true f).1.isSome then 1 else 0)
        = (f :: fs).length
      rw [hif, ih5, List.length_cons]

/-! ### Claims C3, C4, C6, C8, C9 -/

/-- C3: for both pool variants, over every alloc/release history respecting
the ownership contract, `get_stats().allocation_count` equals the number of
successful allocations minus the number of releases performed so far.  For
the dynamic pool the capacity is required positive and the trace shorter
than `2 ^ 32`, within which the source's `uint32_t` counters cannot wrap. -/
theorem c3_allocation_count_balance :
    (∀ (N base : Nat) (tr : List FixedOp),
      FixedMemoryPool.valid_trace (FixedMemoryPool.create N base) tr = true →
      (FixedMemoryPool.run (FixedMemoryPool.create N base) tr).1.get_stats.allocation_count
          + (FixedMemoryPool.run (FixedMemoryPool.create N base) tr).2.2
        = (FixedMemoryPool.run (FixedMemoryPool.create N base) tr).2.1) ∧
    (∀ (B base : Nat) (tr : List DynOp), 0 < B → tr.length < 2 ^ 32 →
      DynamicMemoryPool.valid_trace (DynamicMemoryPool.create B base) tr = true →
      ((DynamicMemoryPool.create B base).run tr).1.get_stats.allocation_count
          + ((DynamicMemoryPool.create B base).run tr).2.2
        = ((DynamicMemoryPool.create B base).run tr).2.1) := by
  constructor
  · intro N base tr hv
    obtain ⟨h1, h2⟩ := fixed_run_spec tr (FixedMemoryPool.create N base)
      (show BlockWF (FixedMemoryPool.create N base).block from blockWF_create N base) hv
    rw [fixed_get_stats_count]
    have hc0 : countLive (FixedMemoryPool.create N base).block = 0 :=
      countLive_create N base
    omega
  · intro B base tr hB hlen hv
    obtain ⟨h1, h2, h3⟩ := dyn_run_spec tr _ (dynWF_create B base)
      (by rw [dyn_create_entries]; exact hB) hv
    rw [get_stats_allocation_count h1]
    have hl0 := dyn_create_total_live B base
    omega

/-- Closed witness for C3: a one-slot fixed pool and a one-slot dynamic pool
each running one allocation followed by its release. -/
theorem c3_allocation_count_balance_witness :
    ((FixedMemoryPool.run (FixedMemoryPool.create 1 0)
        [FixedOp.alloc, FixedOp.dealloc 0]).1.get_stats.allocation_count
      + (FixedMemoryPool.run (FixedMemoryPool.create 1 0)
        [FixedOp.alloc, FixedOp.dealloc 0]).2.2
      = (FixedMemoryPool.run (FixedMemoryPool.create 1 0)
        [FixedOp.alloc, FixedOp.dealloc 0]).2.1) ∧
    (((DynamicMemoryPool.create 1 0).run
        [DynOp.alloc true 50, DynOp.dealloc 0]).1.get_stats.allocation_count
      + ((DynamicMemoryPool.create 1 0).run
        [DynOp.alloc true 50, DynOp.dealloc 0]).2.2
      = ((DynamicMemoryPool.create 1 0).run
        [DynOp.alloc true 50, DynOp.dealloc 0]).2.1) :=
  ⟨c3_allocation_count_balance.1 1 0 [FixedOp.alloc, FixedOp.dealloc 0] (by decide),
   c3_allocation_count_balance.2 1 0 [DynOp.alloc true 50, DynOp.dealloc 0]
     (by decide) (by decide) (by decide)⟩

/-- C4: on every dynamic pool state reached by a valid history, `for_each`
visits exactly the currently live objects — once each, in slot order within
a block (visited addresses strictly increase) and in block-creation order
(the visit list is the concatenation of the per-block lists), with no visit
for any other slot — and the number of visits equals
`get_stats().allocation_count`. -/
theorem c4_for_each_visits_live (B base : Nat) (tr : List DynOp)
    (hB : 0 < B) (hlen : tr.length < 2 ^ 32)
    (hv : DynamicMemoryPool.valid_trace (DynamicMemoryPool.create B base) tr
      = true) :
    (((DynamicMemoryPool.create B base).run tr).1.for_each_list
      = ((((DynamicMemoryPool.create B base).run tr).1.block_info.map
          (fun info => info.block.for_each_list)).flatten)) ∧
    (((DynamicMemoryPool.create B base).run tr).1.for_each_list).Nodup ∧
    (∀ a, a ∈ ((DynamicMemoryPool.create B base).run tr).1.for_each_list
      ↔ ((DynamicMemoryPool.create B base).run tr).1.owns_live a = true) ∧
    (∀ info ∈ ((DynamicMemoryPool.create B base).run tr).1.block_info,
      info.block.for_each_list.Pairwise (· < ·)) ∧
    (((DynamicMemoryPool.create B base).run tr).1.for_each_list).length
      = ((DynamicMemoryPool.create B base).run tr).1.get_stats.allocation_count := by
  obtain ⟨h1, -, -⟩ := dyn_run_spec tr _ (dynWF_create B base)
    (by rw [dyn_create_entries]; exact hB) hv
  exact ⟨dyn_for_each_eq h1, dyn_for_each_nodup h1, dyn_for_each_mem h1,
    fun info _ => for_each_list_sorted _, dyn_for_each_length h1⟩

/-- Closed witness for C4: allocate twice and release the first object; the
visit count matches the reported allocation count. -/
theorem c4_for_each_visits_live_witness :
    (((DynamicMemoryPool.create 2 0).run
        [DynOp.alloc true 50, DynOp.alloc true 60, DynOp.dealloc 0]).1.for_each_list).length
      = ((DynamicMemoryPool.create 2 0).run
        [DynOp.alloc true 50, DynOp.alloc true 60, DynOp.dealloc 0]).1.get_stats.allocation_count :=
  (c4_for_each_visits_live 2 0 [DynOp.alloc true 50, DynOp.alloc true 60, DynOp.dealloc 0]
    (by decide) (by decide) (by decide)).2.2.2.2

/-- C6: a dynamic pool with positive capacity `B` per block, after `B + 1`
allocations with a succeeding host allocator and no releases, reports
`block_count = 2`, and all `B + 1` allocations succeed: the first `B` fill
the initial block and the last triggers `add_block`. -/
theorem c6_second_block_after_capacity (B b0 : Nat) (bases : List Nat)
    (hB : 0 < B) (hlen : bases.length = B + 1)
    (hv : DynamicMemoryPool.valid_trace (DynamicMemoryPool.create B b0)
      (bases.map (fun f => DynOp.alloc true f)) = true) :
    (((DynamicMemoryPool.create B b0).run
        (bases.map (fun f => DynOp.alloc true f))).1.get_stats).block_count = 2 ∧
    ((DynamicMemoryPool.create B b0).run
        (bases.map (fun f => DynOp.alloc true f))).2.1 = B + 1 := by
  obtain ⟨x, hx⟩ := List.length_eq_one.mp
    (show (bases.drop B).length = 1 by rw [List.length_drop, hlen]; omega)
  have htake : (bases.take B).length = B := by
    rw [List.length_take, hlen]
    omega
  have hsplit : bases.map (fun f => DynOp.alloc true f)
      = (bases.take B).map (fun f => DynOp.alloc true f)
        ++ (bases.drop B).map (fun f => DynOp.alloc true f) := by
    rw [← List.map_append, List.take_append_drop]
  rw [hsplit] at hv ⊢
  set t1 := (bases.take B).map (fun f => DynOp.alloc true f) with ht1
  set t2 := (bases.drop B).map (fun f => DynOp.alloc true f) with ht2
  rw [dyn_valid_append t1 t2] at hv
  rw [Bool.and_eq_true] at hv
  obtain ⟨hv1, hv2⟩ := hv
  obtain ⟨hw1, hnb1, hfree1, hent1, hsucc1⟩ := dyn_run_allocs_capacity
    (bases.take B) (DynamicMemoryPool.create B b0) (dynWF_create B b0)
    hv1 (by rw [htake, dyn_create_total_free])
  rw [← ht1] at hw1 hnb1 hfree1 hent1 hsucc1
  have hfree0 : ((DynamicMemoryPool.create B b0).run t1).1.total_free = 0 := by
    rw [dyn_create_total_free, htake] at hfree1
    omega
  -- the last allocation
  have ht2x : t2 = [DynOp.alloc true x] := by
    rw [ht2, hx]
    rfl
  rw [ht2x] at hv2
  rw [dyn_valid_alloc, Bool.and_eq_true] at hv2
  obtain ⟨hfresh, -⟩ := hv2
  obtain ⟨hsome2, hw2, hlive2, hfree2, hnb2, hent2⟩ := dyn_alloc_end_ok x hw1
    hfree0 (by rw [hent1, dyn_create_entries]; exact hB) hfresh
  obtain ⟨e1, e2, e3⟩ := dyn_run_append t1 t2 (DynamicMemoryPool.create B b0)
  constructor
  · rw [get_stats_block_count, e1, ht2x]
    show (((((DynamicMemoryPool.create B b0).run t1).1.alloc_step true x).2.run []).1).num_blocks
      = 2
    rw [dyn_run_nil]
    rw [hnb2, hnb1, dyn_create_num_blocks]
  · rw [e2, hsucc1, htake, ht2x]
    have hif : (if (((DynamicMemoryPool.create B b0).run t1).1.alloc_step true x).1.isSome
        = true then (1 : Nat) else 0) = 1 := by
      rw [hsome2]
      rfl
    show B + ((((((DynamicMemoryPool.create B b0).run t1).1.alloc_step true x).2.run []).2.1)
        + (if (((DynamicMemoryPool.create B b0).run t1).1.alloc_step true x).1.isSome
            then 1 else 0)) = B + 1
    rw [hif, dyn_run_nil]

/-- Closed witness for C6: capacity 1 per block, two allocations. -/
theorem c6_second_block_after_capacity_witness :
    (((DynamicMemoryPool.create 1 0).run
        ([100, 200].map (fun f => DynOp.alloc true f))).1.get_stats).block_count = 2 :=
  (c6_second_block_after_capacity 1 0 [100, 200] (by decide) (by decide)
    (by decide)).1

/-- C8 counterexample (closed): starting from a full single-block dynamic
pool, an allocation for which `Block::create` succeeds but the `BlockInfo`
`realloc` fails crashes — `add_block` stores the unchecked null `realloc`
result into `block_info_` and immediately writes through it — instead of
reporting the failure by returning null as the claim states. -/
theorem c8_realloc_failure_crashes :
    ((DynamicMemoryPool.create 1 0).alloc_step true 50).2.new_object true false 60
      = CallResult.crash := by
  decide

/-- C8 as amended: only the `Block::create` half of the claim holds — when
the block's aligned allocation fails, `add_block` returns null with the
pool unchanged and `new_object` returns null with the pool consistent (only
the free-block hint has advanced) and no internal retry; the failure of the
metadata-cache `realloc` is not detected by the code (see the
counterexample). -/
theorem c8_block_create_failure_null :
    (∀ (p : DynamicMemoryPool) (rok : Bool) (base : Nat),
      p.add_block false rok base = CallResult.ok (none, p)) ∧
    (∀ (p : DynamicMemoryPool) (base : Nat),
      p.num_blocks = p.block_info.length →
      p.free_block_index ≤ p.num_blocks →
      p.total_free = 0 →
      p.new_object false true base
        = CallResult.ok (none, { p with free_block_index := p.num_blocks }) ∧
      (DynWF p → DynWF { p with free_block_index := p.num_blocks })) := by
  constructor
  · intro p rok base
    exact add_block_create_fail p rok base
  · intro p base hbl hle hfz
    have hend := find_free_block_end_of_total_free_zero hbl hle hfz
    constructor
    · rw [new_object_end p false true base hend]
      rw [show ({ p with free_block_index := p.find_free_block } :
          DynamicMemoryPool).add_block false true base
        = CallResult.ok (none, { p with free_block_index := p.find_free_block })
        from add_block_create_fail _ _ _]
      rw [hend]
    · intro hw
      exact (dyn_alloc_end_fail base hw hfz).2

/-- Closed witness for C8's amended theorem: a full one-block pool whose
next allocation fails at `Block::create` returns null with only the hint
advanced. -/
theorem c8_block_create_failure_null_witness :
    ((DynamicMemoryPool.create 1 0).alloc_step true 50).2.new_object false true 60
      = CallResult.ok (none,
        { ((DynamicMemoryPool.create 1 0).alloc_step true 50).2 with
          free_block_index :=
            ((DynamicMemoryPool.create 1 0).alloc_step true 50).2.num_blocks }) :=
  (c8_block_create_failure_null.2 ((DynamicMemoryPool.create 1 0).alloc_step true 50).2
    60 (by decide) (by decide) (by decide)).1

/-- C9: calling the dynamic pool's `delete_object` with a pointer lying
outside the storage range `[offset_, offset_ + entries_per_block)` of every
owned block is a silent no-op: the scan matches no record, no destructor
runs, and the pool — its blocks, `BlockInfo` cache, and free-block hint —
is unchanged. -/
theorem c9_unowned_release_noop (p : DynamicMemoryPool) (ptr : Nat)
    (h : ∀ info ∈ p.block_info,
      ptr < info.offset ∨ info.offset + p.entries_per_block ≤ ptr) :
    p.delete_object ptr = p := by
  refine delete_object_notfound p ptr (findOwnerFrom_eq_none _ _ _ _ ?_)
  intro info hmem hcontra
  rcases h info hmem with hr | hr
  · omega
  · omega

/-- Closed witness for C9: releasing the out-of-range pointer 999 against a
one-block pool with a live object changes nothing. -/
theorem c9_unowned_release_noop_witness :
    ((DynamicMemoryPool.create 2 10).alloc_step true 50).2.delete_object 999
      = ((DynamicMemoryPool.create 2 10).alloc_step true 50).2 :=
  c9_unowned_release_noop _ 999 (by decide)

end MemoryPool
